import Mathlib

/-!
Shallow embedding of the caption-to-transcript core of this repository
(`scripts/fetch_transcripts.py`, with the duplicated copy in
`scripts/fetch_youtube.py` embedded separately in namespace `FYoutube`).

Strings are modelled as `List Char`; a caption file is a `List (List Char)`,
one entry per line of `readlines()` with the trailing newline removed (the
code only ever inspects lines through `strip()` or through regexes anchored
at the start of the line, so the trailing newline never matters).
Python string comparison is code-point lexicographic, which matches
comparison of `List Char` by `Char` code points.
-/

/-- Python's whitespace class for `str.strip()` and the regex `\s` (ASCII part):
space, tab, newline, carriage return, vertical tab, form feed. -/
def isSpaceChar (c : Char) : Bool :=
  c = ' ' || c = '\t' || c = '\n' || c = '\r' || c = '\x0b' || c = '\x0c'

/-- ASCII decimal digit, the `\d` class of the regexes in the source. -/
def isDigitChar (c : Char) : Bool :=
  '0' ≤ c && c ≤ '9'

/-- Python `str.strip()`: drop leading and trailing whitespace. -/
def pyStrip (s : List Char) : List Char :=
  ((s.dropWhile isSpaceChar).reverse.dropWhile isSpaceChar).reverse

/-- Python `str.startswith(p)`: `startsWith p s` is true when `p` is an initial
run of `s`. -/
def startsWith : List Char → List Char → Bool
  | [], _ => true
  | _ :: _, [] => false
  | p :: ps, c :: cs => p = c && startsWith ps cs

/-- Python `str.isdigit()` on the ASCII inputs the parser feeds it:
nonempty and all decimal digits. -/
def pyIsDigit (s : List Char) : Bool :=
  !s.isEmpty && s.all isDigitChar

/-- Python `<=` on strings: code-point lexicographic order, a shorter string
preceding every string it is an initial run of. -/
def lexLe : List Char → List Char → Bool
  | [], _ => true
  | _ :: _, [] => false
  | a :: as, b :: bs => if a < b then true else if b < a then false else lexLe as bs

/-- Match of the timestamp pattern `\d{2}:\d{2}:\d{2}\.\d{3}` at the front of
`s`: the first 12 characters must exist and be digits around `':'`, `':'`,
`'.'` in the fixed positions; on success returns the matched group and the
rest of `s`. -/
def parseStamp (s : List Char) : Option (List Char × List Char) :=
  match s.take 12 with
  | [d1, d2, c1, d3, d4, c2, d5, d6, c3, d7, d8, d9] =>
    if isDigitChar d1 && isDigitChar d2 && c1 = ':' && isDigitChar d3 && isDigitChar d4 &&
        c2 = ':' && isDigitChar d5 && isDigitChar d6 && c3 = '.' && isDigitChar d7 &&
        isDigitChar d8 && isDigitChar d9 then
      some (s.take 12, s.drop 12)
    else none
  | _ => none

/-- The outer-loop regex
`re.match(r'(\d{2}:\d{2}:\d{2}\.\d{3}) --> (\d{2}:\d{2}:\d{2}\.\d{3})', line)`:
a timestamp, the five characters of `' --> '`, and a second timestamp,
anchored at the start of the line with trailing content allowed; on success
returns the two captured timestamp groups. -/
def matchTimestampLine (s : List Char) : Option (List Char × List Char) :=
  match parseStamp s with
  | none => none
  | some (t1, r1) =>
    if startsWith " --> ".toList r1 then
      match parseStamp (r1.drop 5) with
      | none => none
      | some (t2, _) => some (t1, t2)
    else none

/-- The inner-loop regex `re.match(r'\d{2}:\d{2}:\d{2}\.\d{3} -->', lines[i])`
as a Boolean: a timestamp and the arrow at the start of the raw line. -/
def tsArrowStart (s : List Char) : Bool :=
  match parseStamp s with
  | none => false
  | some (_, r1) => startsWith " -->".toList r1

/-- Is the current position the inside of an inline tag `<HH:MM:SS.mmm>`?
`rest` are the characters after a `'<'`: a timestamp followed by `'>'`. -/
def tsTagAfter (rest : List Char) : Bool :=
  match parseStamp rest with
  | none => false
  | some (_, r1) => startsWith ">".toList r1

/-- First substitution of `clean_vtt_text`:
`re.sub(r'<\d{2}:\d{2}:\d{2}\.\d{3}>', '', text)` — delete every inline
`<HH:MM:SS.mmm>` tag, scanning left to right. The counter is the number of
characters of a recognised tag still to be deleted, so the recursion consumes
exactly one character per step. -/
def removeTsTagsAux : Nat → List Char → List Char
  | _, [] => []
  | 0, c :: rest =>
    if c = '<' && tsTagAfter rest then removeTsTagsAux 13 rest
    else c :: removeTsTagsAux 0 rest
  | k + 1, _ :: rest => removeTsTagsAux k rest

def removeTsTags (s : List Char) : List Char :=
  removeTsTagsAux 0 s

/-- Second substitution of `clean_vtt_text`: `re.sub(r'</?c>', '', text)` —
delete every `<c>` and `</c>` tag, scanning left to right with the same
delete-counter scheme. -/
def removeCTagsAux : Nat → List Char → List Char
  | _, [] => []
  | 0, c :: rest =>
    if startsWith "<c>".toList (c :: rest) then removeCTagsAux 2 rest
    else if startsWith "</c>".toList (c :: rest) then removeCTagsAux 3 rest
    else c :: removeCTagsAux 0 rest
  | k + 1, _ :: rest => removeCTagsAux k rest

def removeCTags (s : List Char) : List Char :=
  removeCTagsAux 0 s

/-- Third substitution of `clean_vtt_text`:
`re.sub(r'align:start position:0%', '', text)` — delete every occurrence of
the 23-character literal directive, scanning left to right with the same
delete-counter scheme. -/
def removeAlignAux : Nat → List Char → List Char
  | _, [] => []
  | 0, c :: rest =>
    if startsWith "align:start position:0%".toList (c :: rest) then removeAlignAux 22 rest
    else c :: removeAlignAux 0 rest
  | k + 1, _ :: rest => removeAlignAux k rest

def removeAlign (s : List Char) : List Char :=
  removeAlignAux 0 s

/-- Auxiliary for `re.sub(r'\s+', ' ', text)`: the flag records whether the
previous character was part of a whitespace run already replaced by `' '`. -/
def collapseWsAux : Bool → List Char → List Char
  | _, [] => []
  | prevWs, c :: rest =>
    if isSpaceChar c then
      if prevWs then collapseWsAux true rest
      else ' ' :: collapseWsAux true rest
    else c :: collapseWsAux false rest

/-- `re.sub(r'\s+', ' ', text)`: replace each maximal whitespace run by a
single space. -/
def collapseWs (s : List Char) : List Char :=
  collapseWsAux false s

/-- `clean_vtt_text` of `scripts/fetch_transcripts.py`: remove `<HH:MM:SS.mmm>`
tags, `<c>`/`</c>` tags and `align:start position:0%` directives, then
collapse whitespace runs and strip. -/
def clean_vtt_text (text : List Char) : List Char :=
  pyStrip (collapseWs (removeAlign (removeCTags (removeTsTags text))))

/-- A timestamped segment: the dict
`{"start_time": ..., "end_time": ..., "text": ...}` built by the parser. -/
structure Seg where
  start_time : List Char
  end_time : List Char
  text : List Char
deriving DecidableEq, Repr

/-- Stable insertion of `x` into `l`: `x` goes in front of the first element
whose `start_time` is not below `x`'s. -/
def insertSeg (x : Seg) : List Seg → List Seg
  | [] => [x]
  | y :: ys => if lexLe x.start_time y.start_time then x :: y :: ys else y :: insertSeg x ys

/-- `sorted(segments, key=lambda x: x["start_time"])`: Python's sort is stable,
and a stable sort by a total key order is extensionally unique, so stable
insertion sort embeds it. -/
def sortSegs : List Seg → List Seg
  | [] => []
  | x :: xs => insertSeg x (sortSegs xs)

/-- The `for segment in sorted_segments[1:]` walk of `deduplicate_segments`:
`lastKept` is `unique_segments[-1]`; a segment with the same `start_time` or
the same `text` as the last kept one is skipped, anything else is kept and
becomes the new last kept. -/
def dedupWalk (lastKept : Seg) : List Seg → List Seg
  | [] => []
  | s :: ss =>
    if s.start_time = lastKept.start_time then dedupWalk lastKept ss
    else if s.text = lastKept.text then dedupWalk lastKept ss
    else s :: dedupWalk s ss

/-- `deduplicate_segments` of `scripts/fetch_transcripts.py`. -/
def deduplicate_segments (segments : List Seg) : List Seg :=
  match sortSegs segments with
  | [] => []
  | first :: rest => first :: dedupWalk first rest

/-- The header test of the outer loop:
`line == "WEBVTT" or line.startswith("Kind:") or line.startswith("Language:")`
on the stripped line. -/
def isHeaderLine (line : List Char) : Bool :=
  line = "WEBVTT".toList || startsWith "Kind:".toList line ||
    startsWith "Language:".toList line

/-- The inner collection loop
`while i < len(lines) and lines[i].strip() and not re.match(r'\d{2}:\d{2}:\d{2}\.\d{3} -->', lines[i])`:
append each stripped non-cue-identifier line plus a space to the accumulated
text; return the accumulated text and the unconsumed lines. -/
def collectText : List (List Char) → List Char → List Char × List (List Char)
  | [], acc => (acc, [])
  | l :: rest, acc =>
    if !(pyStrip l).isEmpty && !tsArrowStart l then
      if pyIsDigit (pyStrip l) then collectText rest acc
      else collectText rest (acc ++ pyStrip l ++ [' '])
    else (acc, l :: rest)

/-- The `if current_start and current_text:` block: when a cue is open and has
accumulated text whose cleaning is nonempty, append the segment and extend the
plain transcript with the cleaned text plus a space. -/
def flushCue (cur : Option (List Char × List Char)) (curText : List Char)
    (segs : List Seg) (plain : List Char) : List Seg × List Char :=
  match cur with
  | none => (segs, plain)
  | some (s, e) =>
    if curText.isEmpty then (segs, plain)
    else
      let ct := clean_vtt_text curText
      if ct.isEmpty then (segs, plain)
      else (segs ++ [⟨s, e, ct⟩], plain ++ ct ++ [' '])

def dropWhile_length_le (p : List Char → Bool) :
    ∀ l : List (List Char), (l.dropWhile p).length ≤ l.length := by
  intro l
  induction l with
  | nil => simp
  | cons x xs ih =>
    simp only [List.dropWhile]
    split
    · exact le_trans ih (by simp)
    · simp

def collectText_length_le : ∀ ls acc, (collectText ls acc).2.length ≤ ls.length := by
  intro ls
  induction ls with
  | nil => intro acc; simp [collectText]
  | cons l rest ih =>
    intro acc
    simp only [collectText]
    split
    · split
      · exact le_trans (ih _) (by simp)
      · exact le_trans (ih _) (by simp)
    · simp

/-- The `while i < len(lines):` loop of `parse_vtt_file_with_timestamps`.
State: the open cue's timestamps (`current_start`/`current_end`, `none` when
`current_start is None`), the accumulated `current_text`, the
`timestamped_segments` list and the `plain_transcript` string; at end of input
the final `if current_start and current_text:` block runs. -/
def parseLoop : List (List Char) → Option (List Char × List Char) → List Char →
    List Seg → List Char → List Seg × List Char
  | [], cur, curText, segs, plain => flushCue cur curText segs plain
  | l :: rest, cur, curText, segs, plain =>
    let line := pyStrip l
    if isHeaderLine line then
      parseLoop rest cur curText segs plain
    else
      match matchTimestampLine line with
      | some (t1, t2) =>
        let fl := flushCue cur curText segs plain
        let afterBlank := rest.dropWhile (fun x => (pyStrip x).isEmpty)
        let col := collectText afterBlank []
        parseLoop col.2 (some (t1, t2)) col.1 fl.1 fl.2
      | none => parseLoop rest cur curText segs plain
termination_by ls => ls.length
decreasing_by
  all_goals first
    | exact Nat.lt_succ_of_le (le_trans (collectText_length_le afterBlank [])
        (dropWhile_length_le _ rest))
    | simp

/-- Fuel-indexed structural copy of `parseLoop`, used only to evaluate the
parser on concrete inputs by kernel reduction; `parseLoopF_eq` shows it agrees
with `parseLoop` whenever the fuel covers the number of lines. -/
def parseLoopF : Nat → List (List Char) → Option (List Char × List Char) →
    List Char → List Seg → List Char → List Seg × List Char
  | _, [], cur, curText, segs, plain => flushCue cur curText segs plain
  | 0, _ :: _, _, _, _, _ => ([], [])
  | n + 1, l :: rest, cur, curText, segs, plain =>
    let line := pyStrip l
    if isHeaderLine line then
      parseLoopF n rest cur curText segs plain
    else
      match matchTimestampLine line with
      | some (t1, t2) =>
        let fl := flushCue cur curText segs plain
        let afterBlank := rest.dropWhile (fun x => (pyStrip x).isEmpty)
        let col := collectText afterBlank []
        parseLoopF n col.2 (some (t1, t2)) col.1 fl.1 fl.2
      | none => parseLoopF n rest cur curText segs plain

/-- `parse_vtt_file_with_timestamps` of `scripts/fetch_transcripts.py`, on the
list of lines of the file: run the cue loop, collapse-and-strip the plain
transcript, deduplicate the segments, and return
`(plain_transcript, timestamped_segments)`. -/
def parse_vtt_file_with_timestamps (lines : List (List Char)) :
    List Char × List Seg :=
  let res := parseLoop lines none [] [] []
  (pyStrip (collapseWs res.2), deduplicate_segments res.1)

/-- Python `str.split(':')` on a single-character separator: the list of
(possibly empty) fields between colons. -/
def pySplitColon : List Char → List (List Char)
  | [] => [[]]
  | c :: rest =>
    if c = ':' then [] :: pySplitColon rest
    else
      match pySplitColon rest with
      | [] => [[c]]
      | f :: fs => (c :: f) :: fs

/-- Python `int()` on a string of decimal digits. -/
def pyIntDigits (s : List Char) : Nat :=
  s.foldl (fun acc c => 10 * acc + (c.toNat - '0'.toNat)) 0

/-- Python `float()` on the seconds field of a timestamp, as an exact
rational: on the shape `SS.mmm` it is the integer part plus the fractional
part; `0` on any other shape (never reached on parser output, whose
`end_time` always matches the timestamp regex). -/
def pyFloatSec : List Char → ℚ
  | [a, b, c, d, e, f] =>
    if isDigitChar a && isDigitChar b && c = '.' && isDigitChar d && isDigitChar e &&
        isDigitChar f then
      (pyIntDigits [a, b] : ℚ) + (pyIntDigits [d, e, f] : ℚ) / 1000
    else 0
  | _ => 0

/-- The duration computation of `fetch_transcript_with_timestamps`
(lines 219–228): `0` when there are no segments, otherwise split the last
segment's `end_time` on `':'` and, when there are exactly three parts, compute
`int(hours)*3600 + int(minutes)*60 + float(seconds)`. -/
def fetch_duration (segs : List Seg) : ℚ :=
  match segs.getLast? with
  | none => 0
  | some last =>
    match pySplitColon last.end_time with
    | [h, m, s] => (pyIntDigits h : ℚ) * 3600 + (pyIntDigits m : ℚ) * 60 + pyFloatSec s
    | _ => 0

/-- The transcript record assembled by `fetch_transcript_with_timestamps`:
plain text, deduplicated timestamped segments, and duration in seconds. -/
structure Transcript where
  full_text : List Char
  segments : List Seg
  duration_seconds : ℚ
deriving DecidableEq, Repr

/-- The pure core of `fetch_transcript_with_timestamps`: parse the lines and
attach the duration computed from the last segment. -/
def fetch_transcript_with_timestamps (lines : List (List Char)) : Transcript :=
  let res := parse_vtt_file_with_timestamps lines
  ⟨res.1, res.2, fetch_duration res.2⟩

/-- The comparison `segLe a b` means `a`'s start time is at or before `b`'s. -/
def segLe (a b : Seg) : Prop := lexLe a.start_time b.start_time = true

instance : DecidableRel segLe := fun a b => by
  unfold segLe; infer_instance

/-- Adjacent distinctness produced by the dedup walk: different start and
different text. -/
def segDistinct (a b : Seg) : Prop :=
  a.start_time ≠ b.start_time ∧ a.text ≠ b.text

/-- One step of the spec's walk: compare the incoming segment against the last
kept segment; drop on equal start, then on equal text, else keep. -/
def specDedupStep (kept : List Seg) (s : Seg) : List Seg :=
  match kept.getLast? with
  | none => [s]
  | some last =>
    if s.start_time = last.start_time then kept
    else if s.text = last.text then kept
    else kept ++ [s]

/-- The reference algorithm of the claim: stable-sort by ascending start, keep
the first element, then fold the walk over the remainder. -/
def dedupSpec (segments : List Seg) : List Seg :=
  match sortSegs segments with
  | [] => []
  | first :: rest => rest.foldl specDedupStep [first]

/-- Every whitespace character in `s` is a plain space. -/
def wsOnlySpace (s : List Char) : Prop :=
  ∀ c ∈ s, isSpaceChar c = true → c = ' '

/-- No two adjacent characters of `s` are both whitespace. -/
def noWsRun (s : List Char) : Prop :=
  List.Chain' (fun a b => isSpaceChar a = false ∨ isSpaceChar b = false) s

/-- The first character of `s`, when it exists, is not whitespace. -/
def noLeadWs (s : List Char) : Prop :=
  ∀ c ∈ s.head?, isSpaceChar c = false

/-- The last character of `s`, when it exists, is not whitespace. -/
def noTrailWs (s : List Char) : Prop :=
  ∀ c ∈ s.getLast?, isSpaceChar c = false

/-- The shape of every segment text produced by `clean_vtt_text` when it is
nonempty: whitespace is single plain spaces, never at the edges. -/
def goodText (t : List Char) : Prop :=
  t ≠ [] ∧ wsOnlySpace t ∧ noWsRun t ∧ noLeadWs t ∧ noTrailWs t

/-- Texts joined by single spaces (the expected shape of `full_text`). -/
def joinSpace : List (List Char) → List Char
  | [] => []
  | [t] => t
  | t :: t' :: ts => t ++ ' ' :: joinSpace (t' :: ts)

/-- The raw plain-transcript accumulator: each segment text followed by one
space, concatenated in order (the shape `plain_transcript` has before the
final `re.sub(r'\s+', ' ', ...).strip()`). -/
def flatTexts : List Seg → List Char
  | [] => []
  | s :: ss => s.text ++ ' ' :: flatTexts ss

/-- A well-formed timestamp string: exactly the 12 characters of
`HH:MM:SS.mmm`, so that it matches the timestamp pattern with nothing left
over. -/
def wfStamp (t : List Char) : Prop := parseStamp t = some (t, [])

instance (t : List Char) : Decidable (wfStamp t) := by
  unfold wfStamp
  infer_instance

/-- The spec's reading of a well-formed `HH:MM:SS.mmm` end timestamp:
`hours*3600 + minutes*60 + seconds.milliseconds`. -/
def stampSeconds (e : List Char) : ℚ :=
  (pyIntDigits (e.take 2) : ℚ) * 3600 + (pyIntDigits ((e.drop 3).take 2) : ℚ) * 60 +
    ((pyIntDigits ((e.drop 6).take 2) : ℚ) + (pyIntDigits (e.drop 9) : ℚ) / 1000)

namespace FYoutube

/-- The timestamp pattern `\d{2}:\d{2}:\d{2}\.\d{3}` of `fetch_youtube.py`. -/
def parseStamp (s : List Char) : Option (List Char × List Char) :=
  match s.take 12 with
  | [d1, d2, c1, d3, d4, c2, d5, d6, c3, d7, d8, d9] =>
    if isDigitChar d1 && isDigitChar d2 && c1 = ':' && isDigitChar d3 && isDigitChar d4 &&
        c2 = ':' && isDigitChar d5 && isDigitChar d6 && c3 = '.' && isDigitChar d7 &&
        isDigitChar d8 && isDigitChar d9 then
      some (s.take 12, s.drop 12)
    else none
  | _ => none

/-- The outer-loop timestamp-range regex of `fetch_youtube.py` (line 456). -/
def matchTimestampLine (s : List Char) : Option (List Char × List Char) :=
  match parseStamp s with
  | none => none
  | some (t1, r1) =>
    if startsWith " --> ".toList r1 then
      match parseStamp (r1.drop 5) with
      | none => none
      | some (t2, _) => some (t1, t2)
    else none

/-- The inner-loop boundary regex of `fetch_youtube.py` (line 483). -/
def tsArrowStart (s : List Char) : Bool :=
  match parseStamp s with
  | none => false
  | some (_, r1) => startsWith " -->".toList r1

/-- Tag-interior test for `re.sub(r'<\d{2}:\d{2}:\d{2}\.\d{3}>', '', text)`
(line 512). -/
def tsTagAfter (rest : List Char) : Bool :=
  match parseStamp rest with
  | none => false
  | some (_, r1) => startsWith ">".toList r1

/-- `re.sub(r'<\d{2}:\d{2}:\d{2}\.\d{3}>', '', text)` of `fetch_youtube.py`
(line 512). -/
def removeTsTagsAux : Nat → List Char → List Char
  | _, [] => []
  | 0, c :: rest =>
    if c = '<' && tsTagAfter rest then removeTsTagsAux 13 rest
    else c :: removeTsTagsAux 0 rest
  | k + 1, _ :: rest => removeTsTagsAux k rest

def removeTsTags (s : List Char) : List Char :=
  removeTsTagsAux 0 s

/-- `re.sub(r'</?c>', '', text)` of `fetch_youtube.py` (line 513). -/
def removeCTagsAux : Nat → List Char → List Char
  | _, [] => []
  | 0, c :: rest =>
    if startsWith "<c>".toList (c :: rest) then removeCTagsAux 2 rest
    else if startsWith "</c>".toList (c :: rest) then removeCTagsAux 3 rest
    else c :: removeCTagsAux 0 rest
  | k + 1, _ :: rest => removeCTagsAux k rest

def removeCTags (s : List Char) : List Char :=
  removeCTagsAux 0 s

/-- `re.sub(r'align:start position:0%', '', text)` of `fetch_youtube.py`
(line 514). -/
def removeAlignAux : Nat → List Char → List Char
  | _, [] => []
  | 0, c :: rest =>
    if startsWith "align:start position:0%".toList (c :: rest) then removeAlignAux 22 rest
    else c :: removeAlignAux 0 rest
  | k + 1, _ :: rest => removeAlignAux k rest

def removeAlign (s : List Char) : List Char :=
  removeAlignAux 0 s

/-- `re.sub(r'\s+', ' ', text)` of `fetch_youtube.py` (line 517). -/
def collapseWsAux : Bool → List Char → List Char
  | _, [] => []
  | prevWs, c :: rest =>
    if isSpaceChar c then
      if prevWs then collapseWsAux true rest
      else ' ' :: collapseWsAux true rest
    else c :: collapseWsAux false rest

def collapseWs (s : List Char) : List Char :=
  collapseWsAux false s

/-- `clean_vtt_text` of `scripts/fetch_youtube.py` (lines 509–519). -/
def clean_vtt_text (text : List Char) : List Char :=
  pyStrip (collapseWs (removeAlign (removeCTags (removeTsTags text))))

/-- Stable insertion used to embed the `sorted` call of `fetch_youtube.py`
(line 527). -/
def insertSeg (x : Seg) : List Seg → List Seg
  | [] => [x]
  | y :: ys => if lexLe x.start_time y.start_time then x :: y :: ys else y :: insertSeg x ys

def sortSegs : List Seg → List Seg
  | [] => []
  | x :: xs => insertSeg x (sortSegs xs)

/-- The dedup walk of `fetch_youtube.py` (lines 532–544). -/
def dedupWalk (lastKept : Seg) : List Seg → List Seg
  | [] => []
  | s :: ss =>
    if s.start_time = lastKept.start_time then dedupWalk lastKept ss
    else if s.text = lastKept.text then dedupWalk lastKept ss
    else s :: dedupWalk s ss

/-- `deduplicate_segments` of `scripts/fetch_youtube.py` (lines 521–546). -/
def deduplicate_segments (segments : List Seg) : List Seg :=
  match sortSegs segments with
  | [] => []
  | first :: rest => first :: dedupWalk first rest

/-- The header test of `fetch_youtube.py` (line 451). -/
def isHeaderLine (line : List Char) : Bool :=
  line = "WEBVTT".toList || startsWith "Kind:".toList line ||
    startsWith "Language:".toList line

/-- The inner text-collection loop of `fetch_youtube.py` (lines 483–486). -/
def collectText : List (List Char) → List Char → List Char × List (List Char)
  | [], acc => (acc, [])
  | l :: rest, acc =>
    if !(pyStrip l).isEmpty && !tsArrowStart l then
      if pyIsDigit (pyStrip l) then collectText rest acc
      else collectText rest (acc ++ pyStrip l ++ [' '])
    else (acc, l :: rest)

/-- The save-segment block of `fetch_youtube.py` (lines 459–468 and 491–499). -/
def flushCue (cur : Option (List Char × List Char)) (curText : List Char)
    (segs : List Seg) (plain : List Char) : List Seg × List Char :=
  match cur with
  | none => (segs, plain)
  | some (s, e) =>
    if curText.isEmpty then (segs, plain)
    else
      let ct := clean_vtt_text curText
      if ct.isEmpty then (segs, plain)
      else (segs ++ [⟨s, e, ct⟩], plain ++ ct ++ [' '])

def collectText_length_le : ∀ ls acc, (collectText ls acc).2.length ≤ ls.length := by
  intro ls
  induction ls with
  | nil => intro acc; simp [collectText]
  | cons l rest ih =>
    intro acc
    simp only [collectText]
    split
    · split
      · exact le_trans (ih _) (by simp)
      · exact le_trans (ih _) (by simp)
    · simp

/-- The `while i < len(lines):` loop of `fetch_youtube.py` (lines 447–488). -/
def parseLoop : List (List Char) → Option (List Char × List Char) → List Char →
    List Seg → List Char → List Seg × List Char
  | [], cur, curText, segs, plain => flushCue cur curText segs plain
  | l :: rest, cur, curText, segs, plain =>
    let line := pyStrip l
    if isHeaderLine line then
      parseLoop rest cur curText segs plain
    else
      match matchTimestampLine line with
      | some (t1, t2) =>
        let fl := flushCue cur curText segs plain
        let afterBlank := rest.dropWhile (fun x => (pyStrip x).isEmpty)
        let col := collectText afterBlank []
        parseLoop col.2 (some (t1, t2)) col.1 fl.1 fl.2
      | none => parseLoop rest cur curText segs plain
termination_by ls => ls.length
decreasing_by
  all_goals first
    | exact Nat.lt_succ_of_le (le_trans (collectText_length_le afterBlank [])
        (dropWhile_length_le _ rest))
    | simp

/-- `parse_vtt_file_with_timestamps` of `scripts/fetch_youtube.py`
(lines 431–507). -/
def parse_vtt_file_with_timestamps (lines : List (List Char)) :
    List Char × List Seg :=
  let res := parseLoop lines none [] [] []
  (pyStrip (collapseWs res.2), deduplicate_segments res.1)

end FYoutube

/-- The segments collected by the cue loop before deduplication (the state of
`timestamped_segments` at line 316, before `deduplicate_segments` runs). -/
def preSegments (lines : List (List Char)) : List Seg :=
  (parseLoop lines none [] [] []).1

/-- The spec's Scenario B input, as a caption file: three cues, the second
repeating the first cue's text. -/
def scenarioB : List (List Char) :=
  ["WEBVTT".toList, "Kind: captions".toList, "".toList,
   "00:00:00.000 --> 00:00:02.000".toList, "Hello world".toList, "".toList,
   "00:00:02.000 --> 00:00:04.000".toList, "Hello world".toList, "".toList,
   "00:00:04.000 --> 00:00:06.000".toList, "Hello there".toList]

/-- The spec's Scenario C segments: two cues with the same start and
different texts. -/
def scenarioCsegs : List Seg :=
  [⟨"00:00:00.000".toList, "00:00:03.000".toList, "hello".toList⟩,
   ⟨"00:00:00.000".toList, "00:00:03.000".toList, "hello world".toList⟩]

/-- A timestamp-range line whose first timestamp has a one-digit hour field:
it fails the full range pattern and also the boundary prefix pattern. -/
def malformedTsLine : List Char :=
  "0:00:00.000 --> 00:00:02.000".toList

/-- A timestamp-range line malformed only in its end timestamp (one-digit
hour): it fails the full range pattern but still matches the boundary
prefix pattern `\d{2}:\d{2}:\d{2}\.\d{3} -->`. -/
def endMalformedTsLine : List Char :=
  "00:00:03.000 --> 0:00:02.000".toList

/-- An input with no timestamp lines at all (not caption-shaped). -/
def plainProseLines : List (List Char) :=
  ["just some text".toList, "and a second line, no captions here".toList]

/-! ### Lemmas and verification theorems -/

theorem parseLoopF_eq : ∀ (n : Nat) (lines : List (List Char)) cur curText segs plain,
    lines.length ≤ n →
    parseLoopF n lines cur curText segs plain = parseLoop lines cur curText segs plain := by
  intro n
  induction n with
  | zero =>
    intro lines cur curText segs plain h
    have : lines = [] := List.eq_nil_of_length_eq_zero (Nat.le_zero.mp h)
    subst this
    rw [parseLoopF, parseLoop]
  | succ n ih =>
    intro lines cur curText segs plain h
    cases lines with
    | nil => rw [parseLoopF, parseLoop]
    | cons l rest =>
      rw [parseLoopF, parseLoop]
      have hrest : rest.length ≤ n := Nat.le_of_succ_le_succ h
      split
      · exact ih rest cur curText segs plain hrest
      · split
        · exact ih _ _ _ _ _ (le_trans (collectText_length_le _ _)
            (le_trans (dropWhile_length_le _ rest) hrest))
        · exact ih rest cur curText segs plain hrest

theorem parse_vtt_eq_fuel (lines : List (List Char)) :
    parse_vtt_file_with_timestamps lines =
      (pyStrip (collapseWs (parseLoopF lines.length lines none [] [] []).2),
       deduplicate_segments (parseLoopF lines.length lines none [] [] []).1) := by
  unfold parse_vtt_file_with_timestamps
  rw [parseLoopF_eq lines.length lines none [] [] [] (Nat.le_refl _)]

theorem fetch_eq_fuel (lines : List (List Char)) :
    fetch_transcript_with_timestamps lines =
      ⟨pyStrip (collapseWs (parseLoopF lines.length lines none [] [] []).2),
       deduplicate_segments (parseLoopF lines.length lines none [] [] []).1,
       fetch_duration (deduplicate_segments (parseLoopF lines.length lines none [] [] []).1)⟩ := by
  unfold fetch_transcript_with_timestamps
  rw [parse_vtt_eq_fuel]

/-! ### The lexicographic string order used by `sorted(..., key=...)` -/

theorem lexLe_refl : ∀ a : List Char, lexLe a a = true := by
  intro a
  induction a with
  | nil => rfl
  | cons c cs ih => simp [lexLe, lt_irrefl, ih]

theorem lexLe_total : ∀ a b : List Char, lexLe a b = true ∨ lexLe b a = true := by
  intro a
  induction a with
  | nil => intro b; left; rfl
  | cons c cs ih =>
    intro b
    cases b with
    | nil => right; rfl
    | cons d ds =>
      rcases lt_trichotomy c d with h | h | h
      · left; simp [lexLe, h]
      · subst h
        rcases ih ds with h2 | h2
        · left; simp [lexLe, lt_irrefl, h2]
        · right; simp [lexLe, lt_irrefl, h2]
      · right; simp [lexLe, h]

theorem lexLe_trans : ∀ a b c : List Char,
    lexLe a b = true → lexLe b c = true → lexLe a c = true := by
  intro a
  induction a with
  | nil => intro b c _ _; rfl
  | cons x xs ih =>
    intro b c hab hbc
    cases b with
    | nil => simp [lexLe] at hab
    | cons y ys =>
      cases c with
      | nil => simp [lexLe] at hbc
      | cons z zs =>
        rcases lt_trichotomy x y with h1 | h1 | h1
        · rcases lt_trichotomy y z with h2 | h2 | h2
          · simp [lexLe, lt_trans h1 h2]
          · subst h2; simp [lexLe, h1]
          · simp [lexLe, h1, not_lt_of_lt h1] at hab ⊢
            simp [lexLe, not_lt_of_lt h2, h2] at hbc
        · subst h1
          rcases lt_trichotomy x z with h2 | h2 | h2
          · simp [lexLe, h2]
          · subst h2
            simp [lexLe, lt_irrefl] at hab hbc ⊢
            exact ih _ _ hab hbc
          · simp [lexLe, lt_irrefl] at hab
            simp [lexLe, not_lt_of_lt h2, h2] at hbc
        · simp [lexLe, h1, not_lt_of_lt h1] at hab

theorem lexLe_antisymm : ∀ a b : List Char,
    lexLe a b = true → lexLe b a = true → a = b := by
  intro a
  induction a with
  | nil =>
    intro b _ hba
    cases b with
    | nil => rfl
    | cons d ds => simp [lexLe] at hba
  | cons c cs ih =>
    intro b hab hba
    cases b with
    | nil => simp [lexLe] at hab
    | cons d ds =>
      rcases lt_trichotomy c d with h | h | h
      · simp [lexLe, h, not_lt_of_lt h] at hba
      · subst h
        simp [lexLe, lt_irrefl] at hab hba
        rw [ih ds hab hba]
      · simp [lexLe, h, not_lt_of_lt h] at hab

/-! ### Sorting and deduplication lemmas -/

theorem insertSeg_perm (x : Seg) : ∀ l : List Seg, (insertSeg x l).Perm (x :: l) := by
  intro l
  induction l with
  | nil => simp [insertSeg]
  | cons y ys ih =>
    simp only [insertSeg]
    split
    · exact List.Perm.refl _
    · exact (ih.cons y).trans (List.Perm.swap x y ys)

theorem sortSegs_perm : ∀ l : List Seg, (sortSegs l).Perm l := by
  intro l
  induction l with
  | nil => simp [sortSegs]
  | cons x xs ih => exact (insertSeg_perm x (sortSegs xs)).trans (ih.cons x)

theorem mem_sortSegs {x : Seg} {l : List Seg} : x ∈ sortSegs l ↔ x ∈ l :=
  (sortSegs_perm l).mem_iff

theorem insertSeg_chain' (x : Seg) : ∀ l : List Seg,
    List.Chain' segLe l → List.Chain' segLe (insertSeg x l) := by
  intro l
  induction l with
  | nil => intro _; simp [insertSeg]
  | cons y ys ih =>
    intro hch
    simp only [insertSeg]
    split
    · rename_i hle
      exact List.chain'_cons.mpr ⟨hle, hch⟩
    · rename_i hnle
      have hyx : segLe y x := by
        rcases lexLe_total x.start_time y.start_time with h | h
        · exact absurd h hnle
        · exact h
      refine List.Chain'.cons' (ih hch.tail) ?_
      intro z hz
      cases ys with
      | nil =>
        simp only [insertSeg, List.head?_cons, Option.mem_def, Option.some.injEq] at hz
        exact hz ▸ hyx
      | cons w ws =>
        simp only [insertSeg] at hz
        split at hz
        · simp only [List.head?_cons, Option.mem_def, Option.some.injEq] at hz
          exact hz ▸ hyx
        · simp only [List.head?_cons, Option.mem_def, Option.some.injEq] at hz
          exact hz ▸ (List.chain'_cons.mp hch).1

theorem sortSegs_chain' : ∀ l : List Seg, List.Chain' segLe (sortSegs l) := by
  intro l
  induction l with
  | nil => simp [sortSegs]
  | cons x xs ih => exact insertSeg_chain' x (sortSegs xs) ih

theorem sortSegs_of_chain' : ∀ l : List Seg, List.Chain' segLe l → sortSegs l = l := by
  intro l
  induction l with
  | nil => intro _; rfl
  | cons x xs ih =>
    intro hch
    simp only [sortSegs]
    rw [ih hch.tail]
    cases xs with
    | nil => rfl
    | cons y ys =>
      simp only [insertSeg]
      have hxy := (List.chain'_cons.mp hch).1
      unfold segLe at hxy
      rw [if_pos hxy]

theorem segLe_trans {a b c : Seg} (h1 : segLe a b) (h2 : segLe b c) : segLe a c :=
  lexLe_trans _ _ _ h1 h2

theorem chain'_le_drop_mid {k s : Seg} {ss : List Seg}
    (h : List.Chain' segLe (k :: s :: ss)) : List.Chain' segLe (k :: ss) := by
  cases ss with
  | nil => simp
  | cons t ts =>
    have h1 := (List.chain'_cons.mp h).1
    have h2 := (List.chain'_cons.mp h).2
    have h3 := (List.chain'_cons.mp h2).1
    exact List.chain'_cons.mpr ⟨segLe_trans h1 h3, (List.chain'_cons.mp h2).2⟩

theorem dedupWalk_subset : ∀ (l : List Seg) (k : Seg), ∀ x ∈ dedupWalk k l, x ∈ l := by
  intro l
  induction l with
  | nil => intro k x hx; simp [dedupWalk] at hx
  | cons s ss ih =>
    intro k x hx
    simp only [dedupWalk] at hx
    split at hx
    · exact List.mem_cons_of_mem s (ih k x hx)
    · split at hx
      · exact List.mem_cons_of_mem s (ih k x hx)
      · rcases List.mem_cons.mp hx with h | h
        · exact h ▸ List.mem_cons_self s ss
        · exact List.mem_cons_of_mem s (ih s x h)

theorem dedupWalk_chain : ∀ (l : List Seg) (k : Seg),
    List.Chain' segLe (k :: l) →
    List.Chain' (fun a b => segLe a b ∧ segDistinct a b) (k :: dedupWalk k l) := by
  intro l
  induction l with
  | nil => intro k _; simp [dedupWalk]
  | cons s ss ih =>
    intro k hch
    simp only [dedupWalk]
    by_cases h1 : s.start_time = k.start_time
    · rw [if_pos h1]; exact ih k (chain'_le_drop_mid hch)
    · rw [if_neg h1]
      by_cases h2 : s.text = k.text
      · rw [if_pos h2]; exact ih k (chain'_le_drop_mid hch)
      · rw [if_neg h2]
        exact List.chain'_cons.mpr
          ⟨⟨(List.chain'_cons.mp hch).1, Ne.symm h1, Ne.symm h2⟩,
           ih s (List.chain'_cons.mp hch).2⟩

theorem dedupWalk_of_chain : ∀ (l : List Seg) (k : Seg),
    List.Chain' segDistinct (k :: l) → dedupWalk k l = l := by
  intro l
  induction l with
  | nil => intro k _; rfl
  | cons s ss ih =>
    intro k hch
    have hd := (List.chain'_cons.mp hch).1
    simp only [dedupWalk]
    rw [if_neg (Ne.symm hd.1), if_neg (Ne.symm hd.2)]
    rw [ih s (List.chain'_cons.mp hch).2]

theorem dedup_output_chain (segs : List Seg) :
    List.Chain' (fun a b => segLe a b ∧ segDistinct a b) (deduplicate_segments segs) := by
  unfold deduplicate_segments
  cases h : sortSegs segs with
  | nil => simp
  | cons f rest =>
    have := sortSegs_chain' segs
    rw [h] at this
    exact dedupWalk_chain rest f this

theorem dedup_idem (segs : List Seg) :
    deduplicate_segments (deduplicate_segments segs) = deduplicate_segments segs := by
  have hch := dedup_output_chain segs
  have hle : List.Chain' segLe (deduplicate_segments segs) :=
    hch.imp (fun a b h => h.1)
  have hdist : List.Chain' segDistinct (deduplicate_segments segs) :=
    hch.imp (fun a b h => h.2)
  conv_lhs => rw [deduplicate_segments]
  rw [sortSegs_of_chain' _ hle]
  cases h : deduplicate_segments segs with
  | nil => rfl
  | cons f rest =>
    rw [h] at hdist
    show f :: dedupWalk f rest = f :: rest
    rw [dedupWalk_of_chain rest f hdist]

theorem dedup_subset (segs : List Seg) : ∀ x ∈ deduplicate_segments segs, x ∈ segs := by
  intro x hx
  unfold deduplicate_segments at hx
  rcases h : sortSegs segs with _ | ⟨f, rest⟩
  · rw [h] at hx; simp at hx
  · rw [h] at hx
    have hmem : x ∈ f :: rest := by
      rcases List.mem_cons.mp hx with h1 | h1
      · exact h1 ▸ List.mem_cons_self f rest
      · exact List.mem_cons_of_mem f (dedupWalk_subset rest f x h1)
    rw [← h] at hmem
    exact mem_sortSegs.mp hmem

theorem chain'_head_le : ∀ (l : List Seg) (f : Seg),
    List.Chain' segLe (f :: l) → ∀ x ∈ f :: l, segLe f x := by
  intro l
  induction l with
  | nil =>
    intro f _ x hx
    rw [List.mem_singleton.mp hx]
    exact lexLe_refl _
  | cons s ss ih =>
    intro f hch x hx
    rcases List.mem_cons.mp hx with h | h
    · rw [h]; exact lexLe_refl _
    · have h1 := (List.chain'_cons.mp hch).1
      have h2 := ih s (List.chain'_cons.mp hch).2 x h
      exact segLe_trans h1 h2

/-! ### The reference deduplication algorithm, written as the spec states it -/

theorem foldl_specDedupStep : ∀ (rest : List Seg) (pre : List Seg) (k : Seg),
    rest.foldl specDedupStep (pre ++ [k]) = (pre ++ [k]) ++ dedupWalk k rest := by
  intro rest
  induction rest with
  | nil => intro pre k; simp [dedupWalk]
  | cons s ss ih =>
    intro pre k
    simp only [List.foldl_cons]
    have hstep : specDedupStep (pre ++ [k]) s =
        if s.start_time = k.start_time then pre ++ [k]
        else if s.text = k.text then pre ++ [k]
        else (pre ++ [k]) ++ [s] := by
      simp [specDedupStep, List.getLast?_concat]
    by_cases h1 : s.start_time = k.start_time
    · rw [hstep, if_pos h1, ih, dedupWalk, if_pos h1]
    · by_cases h2 : s.text = k.text
      · rw [hstep, if_neg h1, if_pos h2, ih, dedupWalk, if_neg h1, if_pos h2]
      · rw [hstep, if_neg h1, if_neg h2, ih (pre ++ [k]) s, dedupWalk, if_neg h1, if_neg h2]
        simp

theorem deduplicate_eq_dedupSpec (segs : List Seg) :
    deduplicate_segments segs = dedupSpec segs := by
  unfold deduplicate_segments dedupSpec
  cases h : sortSegs segs with
  | nil => rfl
  | cons f rest =>
    have := foldl_specDedupStep rest [] f
    simpa using this.symm

/-! ### Whitespace-shape predicates and the normalisation lemmas -/

theorem collapseWsAux_props : ∀ (s : List Char) (b : Bool),
    wsOnlySpace (collapseWsAux b s) ∧ noWsRun (collapseWsAux b s) ∧
      (b = true → noLeadWs (collapseWsAux b s)) := by
  intro s
  induction s with
  | nil =>
    intro b
    refine ⟨fun c hc => absurd hc (by simp [collapseWsAux]), ?_, ?_⟩
    · simp [collapseWsAux, noWsRun]
    · intro _; simp [collapseWsAux, noLeadWs]
  | cons c rest ih =>
    intro b
    by_cases hsp : isSpaceChar c = true
    · cases b with
      | true =>
        simp only [collapseWsAux, hsp, if_pos, if_true]
        obtain ⟨iw, ir, il⟩ := ih true
        exact ⟨iw, ir, fun _ => il rfl⟩
      | false =>
        simp only [collapseWsAux, hsp, if_pos, if_true, if_false]
        obtain ⟨ihw, ihr, ihl⟩ := ih true
        refine ⟨?_, ?_, ?_⟩
        · intro d hd _
          rcases List.mem_cons.mp hd with h | h
          · exact h
          · exact ihw d h (by assumption)
        · refine List.Chain'.cons' ihr ?_
          intro y hy
          right
          exact ihl rfl y hy
        · intro hb; simp at hb
    · have hsp' : isSpaceChar c = false := by
        cases h : isSpaceChar c
        · rfl
        · exact absurd h hsp
      simp only [collapseWsAux, hsp', if_neg, Bool.false_eq_true, if_false]
      obtain ⟨ihw, ihr, _⟩ := ih false
      refine ⟨?_, ?_, ?_⟩
      · intro d hd hds
        rcases List.mem_cons.mp hd with h | h
        · rw [h] at hds; rw [hds] at hsp'; simp at hsp'
        · exact ihw d h hds
      · refine List.Chain'.cons' ihr ?_
        intro y _
        left
        exact hsp'
      · intro _
        intro d hd
        simp only [List.head?_cons, Option.mem_def, Option.some.injEq] at hd
        exact hd ▸ hsp'

theorem noLeadWs_dropWhile (s : List Char) :
    noLeadWs (s.dropWhile isSpaceChar) := by
  induction s with
  | nil => intro c hc; simp at hc
  | cons c rest ih =>
    by_cases h : isSpaceChar c = true
    · rw [List.dropWhile_cons_of_pos h]; exact ih
    · rw [List.dropWhile_cons_of_neg h]
      intro d hd
      simp only [List.head?_cons, Option.mem_def, Option.some.injEq] at hd
      rw [← hd]
      cases h2 : isSpaceChar c
      · rfl
      · exact absurd h2 h

theorem dropWhile_of_noLeadWs (s : List Char) (h : noLeadWs s) :
    s.dropWhile isSpaceChar = s := by
  cases s with
  | nil => rfl
  | cons c rest =>
    have : isSpaceChar c = false := h c rfl
    rw [List.dropWhile_cons_of_neg (by simp [this])]

theorem getLast?_dropWhile (p : Char → Bool) : ∀ s : List Char,
    s.dropWhile p ≠ [] → (s.dropWhile p).getLast? = s.getLast? := by
  intro s
  induction s with
  | nil => intro h; simp at h
  | cons c rest ih =>
    intro h
    by_cases hp : p c = true
    · rw [List.dropWhile_cons_of_pos hp] at h ⊢
      rw [ih h]
      cases rest with
      | nil => simp at h
      | cons d ds => rw [List.getLast?_cons_cons]
    · rw [List.dropWhile_cons_of_neg hp]

theorem mem_pyStrip {x : Char} {s : List Char} (h : x ∈ pyStrip s) : x ∈ s := by
  unfold pyStrip at h
  rw [List.mem_reverse] at h
  have h1 := (List.dropWhile_sublist _).mem h
  rw [List.mem_reverse] at h1
  exact (List.dropWhile_sublist _).mem h1

theorem noWsRun_dropWhile {s : List Char} (h : noWsRun s) :
    noWsRun (s.dropWhile isSpaceChar) := by
  induction s with
  | nil => simpa using h
  | cons c rest ih =>
    by_cases hp : isSpaceChar c = true
    · rw [List.dropWhile_cons_of_pos hp]
      exact ih h.tail
    · rw [List.dropWhile_cons_of_neg hp]
      exact h

theorem noWsRun_reverse {s : List Char} (h : noWsRun s) : noWsRun s.reverse := by
  unfold noWsRun at h ⊢
  rw [List.chain'_reverse]
  exact h.imp (fun a b hab => hab.symm)

theorem pyStrip_wsOnlySpace {s : List Char} (h : wsOnlySpace s) :
    wsOnlySpace (pyStrip s) :=
  fun c hc hcs => h c (mem_pyStrip hc) hcs

theorem pyStrip_noWsRun {s : List Char} (h : noWsRun s) : noWsRun (pyStrip s) := by
  unfold pyStrip
  exact noWsRun_reverse (noWsRun_dropWhile (noWsRun_reverse (noWsRun_dropWhile h)))

theorem pyStrip_noTrailWs (s : List Char) : noTrailWs (pyStrip s) := by
  unfold pyStrip noTrailWs
  intro c hc
  rw [List.getLast?_reverse] at hc
  exact noLeadWs_dropWhile _ c hc

theorem pyStrip_noLeadWs (s : List Char) : noLeadWs (pyStrip s) := by
  unfold pyStrip noLeadWs
  intro c hc
  rw [List.head?_reverse] at hc
  by_cases hnil : (s.dropWhile isSpaceChar).reverse.dropWhile isSpaceChar = []
  · rw [hnil] at hc; simp at hc
  · rw [getLast?_dropWhile _ _ hnil, List.getLast?_reverse] at hc
    exact noLeadWs_dropWhile _ c hc

theorem clean_vtt_text_props (u : List Char) :
    wsOnlySpace (clean_vtt_text u) ∧ noWsRun (clean_vtt_text u) ∧
      noLeadWs (clean_vtt_text u) ∧ noTrailWs (clean_vtt_text u) := by
  unfold clean_vtt_text collapseWs
  obtain ⟨hw, hr, _⟩ := collapseWsAux_props (removeAlign (removeCTags (removeTsTags u))) false
  exact ⟨pyStrip_wsOnlySpace hw, pyStrip_noWsRun hr, pyStrip_noLeadWs _, pyStrip_noTrailWs _⟩

theorem clean_vtt_text_goodText {u : List Char} (h : clean_vtt_text u ≠ []) :
    goodText (clean_vtt_text u) := by
  obtain ⟨a, b, c, d⟩ := clean_vtt_text_props u
  exact ⟨h, a, b, c, d⟩

/-! ### Joining segment texts with single spaces -/

theorem joinSpace_head? : ∀ (t : List Char) (ts : List (List Char)), t ≠ [] →
    (joinSpace (t :: ts)).head? = t.head? := by
  intro t ts ht
  cases ts with
  | nil => rfl
  | cons t' ts' =>
    show (t ++ ' ' :: joinSpace (t' :: ts')).head? = t.head?
    rw [List.head?_append_of_ne_nil _ ht]

theorem joinSpace_ne_nil (t : List Char) (ts : List (List Char)) (ht : t ≠ []) :
    joinSpace (t :: ts) ≠ [] := by
  intro h
  have := joinSpace_head? t ts ht
  rw [h] at this
  cases t with
  | nil => exact ht rfl
  | cons c cs => simp at this

theorem joinSpace_props : ∀ (ts : List (List Char)), (∀ t ∈ ts, goodText t) →
    wsOnlySpace (joinSpace ts) ∧ noWsRun (joinSpace ts) ∧
      noLeadWs (joinSpace ts) ∧ noTrailWs (joinSpace ts) := by
  intro ts
  induction ts with
  | nil =>
    intro _
    refine ⟨fun c hc => absurd hc (by simp [joinSpace]), ?_, ?_, ?_⟩
    · simp [joinSpace, noWsRun]
    · intro c hc; simp [joinSpace] at hc
    · intro c hc; simp [joinSpace] at hc
  | cons t ts' ih =>
    intro hgood
    have hgt : goodText t := hgood t (List.mem_cons_self t ts')
    cases ts' with
    | nil =>
      exact ⟨hgt.2.1, hgt.2.2.1, hgt.2.2.2.1, hgt.2.2.2.2⟩
    | cons t' ts'' =>
      have hgt' : goodText t' := hgood t' (List.mem_cons_of_mem t (List.mem_cons_self t' ts''))
      obtain ⟨ihw, ihr, ihl, iht⟩ := ih (fun x hx => hgood x (List.mem_cons_of_mem t hx))
      have hjoin_ne : joinSpace (t' :: ts'') ≠ [] := joinSpace_ne_nil t' ts'' hgt'.1
      have hjoin_head : (joinSpace (t' :: ts'')).head? = t'.head? :=
        joinSpace_head? t' ts'' hgt'.1
      show wsOnlySpace (t ++ ' ' :: joinSpace (t' :: ts'')) ∧
        noWsRun (t ++ ' ' :: joinSpace (t' :: ts'')) ∧
        noLeadWs (t ++ ' ' :: joinSpace (t' :: ts'')) ∧
        noTrailWs (t ++ ' ' :: joinSpace (t' :: ts''))
      refine ⟨?_, ?_, ?_, ?_⟩
      · intro c hc hcs
        rcases List.mem_append.mp hc with h | h
        · exact hgt.2.1 c h hcs
        · rcases List.mem_cons.mp h with h1 | h1
          · exact h1
          · exact ihw c h1 hcs
      · rw [noWsRun, List.chain'_append]
        refine ⟨hgt.2.2.1, ?_, ?_⟩
        · refine List.Chain'.cons' ihr ?_
          intro y hy
          right
          rw [hjoin_head] at hy
          cases ht' : t' with
          | nil => exact absurd ht' hgt'.1
          | cons d ds =>
            rw [ht'] at hy
            simp only [List.head?_cons, Option.mem_def, Option.some.injEq] at hy
            rw [← hy]
            have := hgt'.2.2.2.1
            rw [ht'] at this
            exact this d rfl
        · intro x hx y hy
          simp only [List.head?_cons, Option.mem_def, Option.some.injEq] at hy
          left
          exact hgt.2.2.2.2 x hx
      · intro c hc
        rw [List.head?_append_of_ne_nil _ hgt.1] at hc
        exact hgt.2.2.2.1 c hc
      · intro c hc
        rw [List.getLast?_append_of_ne_nil _ (by simp)] at hc
        cases hj : joinSpace (t' :: ts'') with
        | nil => exact absurd hj hjoin_ne
        | cons d ds =>
          rw [hj, List.getLast?_cons_cons] at hc
          have h5 := iht
          rw [noTrailWs, hj] at h5
          exact h5 c hc

theorem collapseWsAux_id : ∀ (s : List Char), wsOnlySpace s → noWsRun s →
    collapseWsAux false s = s ∧ (noLeadWs s → collapseWsAux true s = s) := by
  intro s
  induction s with
  | nil => intro _ _; exact ⟨rfl, fun _ => rfl⟩
  | cons c rest ih =>
    intro hw hr
    obtain ⟨ihf, iht⟩ := ih (fun x hx => hw x (List.mem_cons_of_mem c hx)) hr.tail
    by_cases hsp : isSpaceChar c = true
    · have hc : c = ' ' := hw c (List.mem_cons_self c rest) hsp
      have hlead : noLeadWs rest := by
        intro y hy
        rcases (List.chain'_cons'.mp hr).1 y hy with h | h
        · rw [h] at hsp; simp at hsp
        · exact h
      constructor
      · have hstep : collapseWsAux false (c :: rest) = ' ' :: collapseWsAux true rest := by
          simp [collapseWsAux, hsp]
        rw [hstep, iht hlead, hc]
      · intro hl
        have := hl c rfl
        rw [this] at hsp
        simp at hsp
    · have hsp' : isSpaceChar c = false := by
        cases h : isSpaceChar c
        · rfl
        · exact absurd h hsp
      constructor
      · simp only [collapseWsAux, hsp', Bool.false_eq_true, if_false]
        rw [ihf]
      · intro _
        simp only [collapseWsAux, hsp', Bool.false_eq_true, if_false]
        rw [ihf]

theorem pyStrip_body_space (body : List Char) (hne : body ≠ [])
    (hlead : noLeadWs body) (htrail : noTrailWs body) :
    pyStrip (body ++ [' ']) = body := by
  unfold pyStrip
  have h1 : (body ++ [' ']).dropWhile isSpaceChar = body ++ [' '] := by
    apply dropWhile_of_noLeadWs
    intro c hc
    rw [List.head?_append_of_ne_nil _ hne] at hc
    exact hlead c hc
  rw [h1, List.reverse_append]
  show (List.dropWhile isSpaceChar (' ' :: body.reverse)).reverse = body
  rw [List.dropWhile_cons_of_pos (by decide)]
  have h2 : body.reverse.dropWhile isSpaceChar = body.reverse := by
    apply dropWhile_of_noLeadWs
    intro c hc
    rw [List.head?_reverse] at hc
    exact htrail c hc
  rw [h2, List.reverse_reverse]

theorem flatTexts_append : ∀ (a b : List Seg),
    flatTexts (a ++ b) = flatTexts a ++ flatTexts b := by
  intro a b
  induction a with
  | nil => rfl
  | cons s ss ih => simp [flatTexts, ih]

theorem flatTexts_eq_join : ∀ (s : Seg) (ss : List Seg),
    flatTexts (s :: ss) = joinSpace ((s :: ss).map Seg.text) ++ [' '] := by
  intro s ss
  induction ss generalizing s with
  | nil => simp [flatTexts, joinSpace]
  | cons s' ss' ih =>
    show s.text ++ ' ' :: flatTexts (s' :: ss') = _
    rw [ih s']
    simp [joinSpace]

theorem plain_normalize (segs : List Seg) (hgood : ∀ s ∈ segs, goodText s.text) :
    pyStrip (collapseWs (flatTexts segs)) = joinSpace (segs.map Seg.text) := by
  cases segs with
  | nil => rfl
  | cons s ss =>
    have hmapgood : ∀ t ∈ (s :: ss).map Seg.text, goodText t := by
      intro t ht
      rcases List.mem_map.mp ht with ⟨x, hx, hxt⟩
      exact hxt ▸ hgood x hx
    obtain ⟨bw, br, bl, bt⟩ := joinSpace_props _ hmapgood
    have hbodyne : joinSpace ((s :: ss).map Seg.text) ≠ [] := by
      show joinSpace (s.text :: ss.map Seg.text) ≠ []
      exact joinSpace_ne_nil _ _ (hgood s (List.mem_cons_self s ss)).1
    set body := joinSpace ((s :: ss).map Seg.text) with hbody
    have hflat : flatTexts (s :: ss) = body ++ [' '] := flatTexts_eq_join s ss
    have hcw : wsOnlySpace (body ++ [' ']) := by
      intro c hc hcs
      rcases List.mem_append.mp hc with h | h
      · exact bw c h hcs
      · simpa using h
    have hcr : noWsRun (body ++ [' ']) := by
      rw [noWsRun, List.chain'_append]
      refine ⟨br, by simp [noWsRun], ?_⟩
      intro x hx y hy
      left
      exact bt x hx
    rw [hflat]
    unfold collapseWs
    rw [(collapseWsAux_id _ hcw hcr).1]
    exact pyStrip_body_space body hbodyne bl bt

/-! ### Structure of the cue loop's accumulators -/

theorem flushCue_append (cur : Option (List Char × List Char)) (ct : List Char)
    (segs : List Seg) (plain : List Char) :
    flushCue cur ct segs plain =
      (segs ++ (flushCue cur ct [] []).1, plain ++ (flushCue cur ct [] []).2) := by
  cases cur with
  | none => simp [flushCue]
  | some p =>
    obtain ⟨s, e⟩ := p
    by_cases h1 : ct.isEmpty
    · simp [flushCue, h1]
    · by_cases h2 : (clean_vtt_text ct).isEmpty
      · simp [flushCue, h1, h2]
      · simp [flushCue, h1, h2]

theorem flushCue_flat (cur : Option (List Char × List Char)) (ct : List Char) :
    (flushCue cur ct [] []).2 = flatTexts (flushCue cur ct [] []).1 := by
  cases cur with
  | none => rfl
  | some p =>
    obtain ⟨s, e⟩ := p
    by_cases h1 : ct.isEmpty
    · simp [flushCue, h1, flatTexts]
    · by_cases h2 : (clean_vtt_text ct).isEmpty
      · simp [flushCue, h1, h2, flatTexts]
      · simp [flushCue, h1, h2, flatTexts]

theorem flushCue_goodText (cur : Option (List Char × List Char)) (ct : List Char)
    (segs : List Seg) (plain : List Char)
    (hsegs : ∀ s ∈ segs, goodText s.text) :
    ∀ s ∈ (flushCue cur ct segs plain).1, goodText s.text := by
  cases cur with
  | none => exact hsegs
  | some p =>
    obtain ⟨st, en⟩ := p
    by_cases h1 : ct.isEmpty
    · simpa [flushCue, h1] using hsegs
    · by_cases h2 : (clean_vtt_text ct).isEmpty
      · simpa [flushCue, h1, h2] using hsegs
      · intro s hs
        simp only [flushCue, h1, h2, Bool.false_eq_true, if_false] at hs
        rcases List.mem_append.mp hs with h | h
        · exact hsegs s h
        · rw [List.mem_singleton.mp h]
          exact clean_vtt_text_goodText (by simpa using h2)

theorem parseLoop_append : ∀ (n : Nat) (lines : List (List Char)) cur ct segs plain,
    lines.length ≤ n →
    parseLoop lines cur ct segs plain =
      (segs ++ (parseLoop lines cur ct [] []).1,
       plain ++ (parseLoop lines cur ct [] []).2) := by
  intro n
  induction n with
  | zero =>
    intro lines cur ct segs plain h
    have : lines = [] := List.eq_nil_of_length_eq_zero (Nat.le_zero.mp h)
    subst this
    simp only [parseLoop]
    exact flushCue_append cur ct segs plain
  | succ n ih =>
    intro lines cur ct segs plain h
    cases lines with
    | nil =>
      simp only [parseLoop]
      exact flushCue_append cur ct segs plain
    | cons l rest =>
      have hrest : rest.length ≤ n := Nat.le_of_succ_le_succ h
      simp only [parseLoop]
      split
      · exact ih rest cur ct segs plain hrest
      · split
        · rename_i t1 t2 heq
          rw [flushCue_append cur ct segs plain]
          have hlen : (collectText (rest.dropWhile fun x => (pyStrip x).isEmpty) []).2.length ≤ n :=
            le_trans (collectText_length_le _ _) (le_trans (dropWhile_length_le _ rest) hrest)
          rw [ih _ _ _ _ _ hlen, ih _ _ _ (flushCue cur ct [] []).1 (flushCue cur ct [] []).2 hlen]
          simp
        · exact ih rest cur ct segs plain hrest

theorem parseLoop_flat : ∀ (n : Nat) (lines : List (List Char)) cur ct,
    lines.length ≤ n →
    (parseLoop lines cur ct [] []).2 = flatTexts (parseLoop lines cur ct [] []).1 := by
  intro n
  induction n with
  | zero =>
    intro lines cur ct h
    have : lines = [] := List.eq_nil_of_length_eq_zero (Nat.le_zero.mp h)
    subst this
    simp only [parseLoop]
    exact flushCue_flat cur ct
  | succ n ih =>
    intro lines cur ct h
    cases lines with
    | nil =>
      simp only [parseLoop]
      exact flushCue_flat cur ct
    | cons l rest =>
      have hrest : rest.length ≤ n := Nat.le_of_succ_le_succ h
      simp only [parseLoop]
      split
      · exact ih rest cur ct hrest
      · split
        · rename_i t1 t2 heq
          have hlen : (collectText (rest.dropWhile fun x => (pyStrip x).isEmpty) []).2.length ≤ n :=
            le_trans (collectText_length_le _ _) (le_trans (dropWhile_length_le _ rest) hrest)
          rw [parseLoop_append n _ _ _ _ _ hlen, flatTexts_append]
          rw [← ih _ _ _ hlen, ← flushCue_flat cur ct]
        · exact ih rest cur ct hrest

theorem parseLoop_goodText : ∀ (n : Nat) (lines : List (List Char)) cur ct segs plain,
    lines.length ≤ n → (∀ s ∈ segs, goodText s.text) →
    ∀ s ∈ (parseLoop lines cur ct segs plain).1, goodText s.text := by
  intro n
  induction n with
  | zero =>
    intro lines cur ct segs plain h hsegs
    have : lines = [] := List.eq_nil_of_length_eq_zero (Nat.le_zero.mp h)
    subst this
    simp only [parseLoop]
    exact flushCue_goodText cur ct segs plain hsegs
  | succ n ih =>
    intro lines cur ct segs plain h hsegs
    cases lines with
    | nil =>
      simp only [parseLoop]
      exact flushCue_goodText cur ct segs plain hsegs
    | cons l rest =>
      have hrest : rest.length ≤ n := Nat.le_of_succ_le_succ h
      simp only [parseLoop]
      split
      · exact ih rest cur ct segs plain hrest hsegs
      · split
        · rename_i t1 t2 heq
          have hlen : (collectText (rest.dropWhile fun x => (pyStrip x).isEmpty) []).2.length ≤ n :=
            le_trans (collectText_length_le _ _) (le_trans (dropWhile_length_le _ rest) hrest)
          exact ih _ _ _ _ _ hlen (flushCue_goodText cur ct segs plain hsegs)
        · exact ih rest cur ct segs plain hrest hsegs

/-! ### Well-formed timestamps carried by every parsed segment -/

theorem parseStamp_some {s t r : List Char} (h : parseStamp s = some (t, r)) :
    t = s.take 12 ∧ r = s.drop 12 ∧ wfStamp t := by
  unfold parseStamp at h
  split at h
  · rename_i d1 d2 c1 d3 d4 c2 d5 d6 c3 d7 d8 d9 heq
    split at h
    · rename_i hg
      simp only [Option.some.injEq, Prod.mk.injEq] at h
      refine ⟨h.1.symm, h.2.symm, ?_⟩
      have ht12 : t = [d1, d2, c1, d3, d4, c2, d5, d6, c3, d7, d8, d9] := by
        rw [← h.1, heq]
      subst ht12
      unfold wfStamp parseStamp
      simp [hg]
    · exact absurd h (by simp)
  · exact absurd h (by simp)

theorem matchTimestampLine_wf {s t1 t2 : List Char}
    (h : matchTimestampLine s = some (t1, t2)) : wfStamp t1 ∧ wfStamp t2 := by
  unfold matchTimestampLine at h
  split at h
  · exact absurd h (by simp)
  · rename_i t1' r1 heq
    split at h
    · split at h
      · exact absurd h (by simp)
      · rename_i t2' r2 heq2
        simp only [Option.some.injEq, Prod.mk.injEq] at h
        exact ⟨h.1 ▸ (parseStamp_some heq).2.2, h.2 ▸ (parseStamp_some heq2).2.2⟩
    · exact absurd h (by simp)

theorem flushCue_wfStamp (cur : Option (List Char × List Char)) (ct : List Char)
    (segs : List Seg) (plain : List Char)
    (hcur : ∀ a b, cur = some (a, b) → wfStamp a ∧ wfStamp b)
    (hsegs : ∀ s ∈ segs, wfStamp s.start_time ∧ wfStamp s.end_time) :
    ∀ s ∈ (flushCue cur ct segs plain).1, wfStamp s.start_time ∧ wfStamp s.end_time := by
  cases cur with
  | none => exact hsegs
  | some p =>
    obtain ⟨st, en⟩ := p
    by_cases h1 : ct.isEmpty
    · simpa [flushCue, h1] using hsegs
    · by_cases h2 : (clean_vtt_text ct).isEmpty
      · simpa [flushCue, h1, h2] using hsegs
      · intro s hs
        simp only [flushCue, h1, h2, Bool.false_eq_true, if_false] at hs
        rcases List.mem_append.mp hs with h | h
        · exact hsegs s h
        · rw [List.mem_singleton.mp h]
          exact hcur st en rfl

theorem parseLoop_wfStamp : ∀ (n : Nat) (lines : List (List Char)) cur ct segs plain,
    lines.length ≤ n →
    (∀ a b, cur = some (a, b) → wfStamp a ∧ wfStamp b) →
    (∀ s ∈ segs, wfStamp s.start_time ∧ wfStamp s.end_time) →
    ∀ s ∈ (parseLoop lines cur ct segs plain).1,
      wfStamp s.start_time ∧ wfStamp s.end_time := by
  intro n
  induction n with
  | zero =>
    intro lines cur ct segs plain h hcur hsegs
    have : lines = [] := List.eq_nil_of_length_eq_zero (Nat.le_zero.mp h)
    subst this
    simp only [parseLoop]
    exact flushCue_wfStamp cur ct segs plain hcur hsegs
  | succ n ih =>
    intro lines cur ct segs plain h hcur hsegs
    cases lines with
    | nil =>
      simp only [parseLoop]
      exact flushCue_wfStamp cur ct segs plain hcur hsegs
    | cons l rest =>
      have hrest : rest.length ≤ n := Nat.le_of_succ_le_succ h
      simp only [parseLoop]
      split
      · exact ih rest cur ct segs plain hrest hcur hsegs
      · split
        · rename_i t1 t2 heq
          have hlen : (collectText (rest.dropWhile fun x => (pyStrip x).isEmpty) []).2.length ≤ n :=
            le_trans (collectText_length_le _ _) (le_trans (dropWhile_length_le _ rest) hrest)
          refine ih _ _ _ _ _ hlen ?_ (flushCue_wfStamp cur ct segs plain hcur hsegs)
          intro a b hab
          simp only [Option.some.injEq, Prod.mk.injEq] at hab
          have := matchTimestampLine_wf heq
          exact ⟨hab.1 ▸ this.1, hab.2 ▸ this.2⟩
        · exact ih rest cur ct segs plain hrest hcur hsegs

/-! ### Inputs without timestamp lines -/

theorem parseLoop_no_ts : ∀ (lines : List (List Char)) (ct : List Char)
    (segs : List Seg) (plain : List Char),
    (∀ l ∈ lines, matchTimestampLine (pyStrip l) = none) →
    parseLoop lines none ct segs plain = (segs, plain) := by
  intro lines
  induction lines with
  | nil => intro ct segs plain _; simp only [parseLoop]; rfl
  | cons l rest ih =>
    intro ct segs plain h
    simp only [parseLoop]
    split
    · exact ih ct segs plain (fun x hx => h x (List.mem_cons_of_mem l hx))
    · split
      · rename_i t1 t2 heq
        exact absurd heq (by rw [h l (List.mem_cons_self l rest)]; simp)
      · exact ih ct segs plain (fun x hx => h x (List.mem_cons_of_mem l hx))

/-! ### Lines that are neither headers nor well-formed timestamp lines -/

theorem parseLoop_skip_line
    (m : List Char) (rest : List (List Char)) (cur : Option (List Char × List Char))
    (ct : List Char) (segs : List Seg) (plain : List Char)
    (hhdr : isHeaderLine (pyStrip m) = false)
    (hts : matchTimestampLine (pyStrip m) = none) :
    parseLoop (m :: rest) cur ct segs plain = parseLoop rest cur ct segs plain := by
  simp only [parseLoop]
  rw [hhdr, hts]
  simp

theorem collectText_text_line (m : List Char) (rest : List (List Char)) (acc : List Char)
    (hne : (pyStrip m).isEmpty = false) (harrow : tsArrowStart m = false)
    (hdig : pyIsDigit (pyStrip m) = false) :
    collectText (m :: rest) acc = collectText rest (acc ++ pyStrip m ++ [' ']) := by
  simp only [collectText]
  rw [hne, harrow, hdig]
  simp

theorem collectText_stop_line (m : List Char) (rest : List (List Char)) (acc : List Char)
    (harrow : tsArrowStart m = true) :
    collectText (m :: rest) acc = (acc, m :: rest) := by
  simp only [collectText]
  rw [harrow]
  simp

/-! ### Duration of a well-formed end timestamp -/

theorem digit_ne_colon {c : Char} (h : isDigitChar c = true) : ¬(c = ':') := by
  intro he
  rw [he] at h
  exact absurd h (by decide)

theorem wfStamp_shape {e : List Char} (h : wfStamp e) :
    ∃ d1 d2 d3 d4 d5 d6 d7 d8 d9 : Char,
      e = [d1, d2, ':', d3, d4, ':', d5, d6, '.', d7, d8, d9] ∧
      isDigitChar d1 = true ∧ isDigitChar d2 = true ∧ isDigitChar d3 = true ∧
      isDigitChar d4 = true ∧ isDigitChar d5 = true ∧ isDigitChar d6 = true ∧
      isDigitChar d7 = true ∧ isDigitChar d8 = true ∧ isDigitChar d9 = true := by
  unfold wfStamp parseStamp at h
  split at h
  · rename_i d1 d2 c1 d3 d4 c2 d5 d6 c3 d7 d8 d9 heq
    split at h
    · rename_i hg
      simp only [Option.some.injEq, Prod.mk.injEq] at h
      simp only [Bool.and_eq_true, decide_eq_true_eq] at hg
      obtain ⟨⟨⟨⟨⟨⟨⟨⟨⟨⟨⟨h1, h2⟩, hc1⟩, h3⟩, h4⟩, hc2⟩, h5⟩, h6⟩, hc3⟩, h7⟩, h8⟩, h9⟩ := hg
      refine ⟨d1, d2, d3, d4, d5, d6, d7, d8, d9, ?_, h1, h2, h3, h4, h5, h6, h7, h8, h9⟩
      rw [← h.1, heq, hc1, hc2, hc3]
    · exact absurd h (by simp)
  · exact absurd h (by simp)

theorem fetch_duration_wf (segs : List Seg) (last : Seg)
    (hlast : segs.getLast? = some last) (hwf : wfStamp last.end_time) :
    fetch_duration segs = stampSeconds last.end_time := by
  obtain ⟨d1, d2, d3, d4, d5, d6, d7, d8, d9, he, h1, h2, h3, h4, h5, h6, h7, h8, h9⟩ :=
    wfStamp_shape hwf
  have hsplit : pySplitColon [d1, d2, ':', d3, d4, ':', d5, d6, '.', d7, d8, d9] =
      [[d1, d2], [d3, d4], [d5, d6, '.', d7, d8, d9]] := by
    simp [pySplitColon, digit_ne_colon h1, digit_ne_colon h2, digit_ne_colon h3,
      digit_ne_colon h4, digit_ne_colon h5, digit_ne_colon h6, digit_ne_colon h7,
      digit_ne_colon h8, digit_ne_colon h9]
  have hfloat : pyFloatSec [d5, d6, '.', d7, d8, d9] =
      (pyIntDigits [d5, d6] : ℚ) + (pyIntDigits [d7, d8, d9] : ℚ) / 1000 := by
    simp [pyFloatSec, h5, h6, h7, h8, h9]
  unfold fetch_duration
  rw [hlast]
  show (match pySplitColon last.end_time with
    | [h, m, s] => (pyIntDigits h : ℚ) * 3600 + (pyIntDigits m : ℚ) * 60 + pyFloatSec s
    | _ => 0) = stampSeconds last.end_time
  rw [he, hsplit]
  show (pyIntDigits [d1, d2] : ℚ) * 3600 + (pyIntDigits [d3, d4] : ℚ) * 60 +
      pyFloatSec [d5, d6, '.', d7, d8, d9] = _
  rw [hfloat]
  unfold stampSeconds
  norm_num

/-!
### The duplicated pipeline of `scripts/fetch_youtube.py`

`fetch_youtube.py` (lines 431–546) contains its own
`parse_vtt_file_with_timestamps`, `clean_vtt_text` and `deduplicate_segments`.
They are embedded here a second time, independently, from that file's text;
shared are only the models of Python builtins (`str.strip`, `str.startswith`,
`str.isdigit`, string order, the whitespace and digit character classes) and
the `Seg` record shape.
-/

theorem fy_parseStamp_eq : ∀ s, FYoutube.parseStamp s = parseStamp s := by
  intro s; rfl

theorem fy_matchTimestampLine_eq : ∀ s, FYoutube.matchTimestampLine s = matchTimestampLine s := by
  intro s; rfl

theorem fy_tsArrowStart_eq : ∀ s, FYoutube.tsArrowStart s = tsArrowStart s := by
  intro s; rfl

theorem fy_tsTagAfter_eq : ∀ s, FYoutube.tsTagAfter s = tsTagAfter s := by
  intro s; rfl

theorem fy_isHeaderLine_eq : ∀ s, FYoutube.isHeaderLine s = isHeaderLine s := by
  intro s; rfl

theorem fy_removeTsTagsAux_eq : ∀ (s : List Char) (k : Nat),
    FYoutube.removeTsTagsAux k s = removeTsTagsAux k s := by
  intro s
  induction s with
  | nil => intro k; cases k <;> rfl
  | cons c rest ih =>
    intro k
    cases k with
    | zero =>
      simp only [FYoutube.removeTsTagsAux, removeTsTagsAux, fy_tsTagAfter_eq]
      by_cases h : (c = '<' && tsTagAfter rest)
      · simp [h, ih]
      · simp [h, ih]
    | succ k =>
      simp only [FYoutube.removeTsTagsAux, removeTsTagsAux]
      exact ih k

theorem fy_removeCTagsAux_eq : ∀ (s : List Char) (k : Nat),
    FYoutube.removeCTagsAux k s = removeCTagsAux k s := by
  intro s
  induction s with
  | nil => intro k; cases k <;> rfl
  | cons c rest ih =>
    intro k
    cases k with
    | zero =>
      simp only [FYoutube.removeCTagsAux, removeCTagsAux]
      by_cases h1 : (startsWith "<c>".toList (c :: rest))
      · simp [h1, ih]
      · by_cases h2 : (startsWith "</c>".toList (c :: rest))
        · simp [h1, h2, ih]
        · simp [h1, h2, ih]
    | succ k =>
      simp only [FYoutube.removeCTagsAux, removeCTagsAux]
      exact ih k

theorem fy_removeAlignAux_eq : ∀ (s : List Char) (k : Nat),
    FYoutube.removeAlignAux k s = removeAlignAux k s := by
  intro s
  induction s with
  | nil => intro k; cases k <;> rfl
  | cons c rest ih =>
    intro k
    cases k with
    | zero =>
      simp only [FYoutube.removeAlignAux, removeAlignAux]
      by_cases h : (startsWith "align:start position:0%".toList (c :: rest))
      · simp [h, ih]
      · simp [h, ih]
    | succ k =>
      simp only [FYoutube.removeAlignAux, removeAlignAux]
      exact ih k

theorem fy_collapseWsAux_eq : ∀ (s : List Char) (b : Bool),
    FYoutube.collapseWsAux b s = collapseWsAux b s := by
  intro s
  induction s with
  | nil => intro b; rfl
  | cons c rest ih =>
    intro b
    simp only [FYoutube.collapseWsAux, collapseWsAux]
    by_cases h : isSpaceChar c
    · cases b <;> simp [h, ih]
    · simp [h, ih]

theorem fy_clean_vtt_text_eq : ∀ t, FYoutube.clean_vtt_text t = clean_vtt_text t := by
  intro t
  unfold FYoutube.clean_vtt_text clean_vtt_text FYoutube.collapseWs collapseWs
    FYoutube.removeAlign removeAlign FYoutube.removeCTags removeCTags
    FYoutube.removeTsTags removeTsTags
  rw [fy_removeTsTagsAux_eq, fy_removeCTagsAux_eq, fy_removeAlignAux_eq, fy_collapseWsAux_eq]

theorem fy_insertSeg_eq : ∀ (l : List Seg) (x : Seg),
    FYoutube.insertSeg x l = insertSeg x l := by
  intro l
  induction l with
  | nil => intro x; rfl
  | cons y ys ih =>
    intro x
    simp only [FYoutube.insertSeg, insertSeg]
    by_cases h : (lexLe x.start_time y.start_time)
    · simp [h]
    · simp [h, ih]

theorem fy_sortSegs_eq : ∀ l : List Seg, FYoutube.sortSegs l = sortSegs l := by
  intro l
  induction l with
  | nil => rfl
  | cons x xs ih =>
    simp only [FYoutube.sortSegs, sortSegs, ih, fy_insertSeg_eq]

theorem fy_dedupWalk_eq : ∀ (l : List Seg) (k : Seg),
    FYoutube.dedupWalk k l = dedupWalk k l := by
  intro l
  induction l with
  | nil => intro k; rfl
  | cons s ss ih =>
    intro k
    simp only [FYoutube.dedupWalk, dedupWalk]
    by_cases h1 : s.start_time = k.start_time
    · simp [h1, ih]
    · by_cases h2 : s.text = k.text
      · simp [h1, h2, ih]
      · simp [h1, h2, ih]

theorem fy_deduplicate_segments_eq : ∀ segs,
    FYoutube.deduplicate_segments segs = deduplicate_segments segs := by
  intro segs
  unfold FYoutube.deduplicate_segments deduplicate_segments
  rw [fy_sortSegs_eq]
  cases sortSegs segs with
  | nil => rfl
  | cons f rest => simp [fy_dedupWalk_eq]

theorem fy_collectText_eq : ∀ (ls : List (List Char)) (acc : List Char),
    FYoutube.collectText ls acc = collectText ls acc := by
  intro ls
  induction ls with
  | nil => intro acc; rfl
  | cons l rest ih =>
    intro acc
    simp only [FYoutube.collectText, collectText, fy_tsArrowStart_eq]
    by_cases h1 : (!(pyStrip l).isEmpty && !tsArrowStart l)
    · by_cases h2 : (pyIsDigit (pyStrip l))
      · simp [h1, h2, ih]
      · simp [h1, h2, ih]
    · simp [h1]

theorem fy_flushCue_eq : ∀ cur ct segs plain,
    FYoutube.flushCue cur ct segs plain = flushCue cur ct segs plain := by
  intro cur ct segs plain
  cases cur with
  | none => rfl
  | some p =>
    obtain ⟨s, e⟩ := p
    simp only [FYoutube.flushCue, flushCue, fy_clean_vtt_text_eq]

theorem fy_parseLoop_eq : ∀ (n : Nat) (lines : List (List Char)) cur ct segs plain,
    lines.length ≤ n →
    FYoutube.parseLoop lines cur ct segs plain = parseLoop lines cur ct segs plain := by
  intro n
  induction n with
  | zero =>
    intro lines cur ct segs plain h
    have : lines = [] := List.eq_nil_of_length_eq_zero (Nat.le_zero.mp h)
    subst this
    simp only [FYoutube.parseLoop, parseLoop]
    exact fy_flushCue_eq cur ct segs plain
  | succ n ih =>
    intro lines cur ct segs plain h
    cases lines with
    | nil =>
      simp only [FYoutube.parseLoop, parseLoop]
      exact fy_flushCue_eq cur ct segs plain
    | cons l rest =>
      have hrest : rest.length ≤ n := Nat.le_of_succ_le_succ h
      simp only [FYoutube.parseLoop, parseLoop, fy_isHeaderLine_eq, fy_matchTimestampLine_eq,
        fy_collectText_eq, fy_flushCue_eq]
      by_cases hh : (isHeaderLine (pyStrip l))
      · simp only [hh, if_true]
        exact ih rest cur ct segs plain hrest
      · simp only [hh, Bool.false_eq_true, if_false]
        rcases hm : matchTimestampLine (pyStrip l) with _ | ⟨t1, t2⟩
        · simp only [hm]
          exact ih rest cur ct segs plain hrest
        · simp only [hm]
          have hlen : (collectText (rest.dropWhile fun x => (pyStrip x).isEmpty) []).2.length ≤ n :=
            le_trans (collectText_length_le _ _) (le_trans (dropWhile_length_le _ rest) hrest)
          exact ih _ _ _ _ _ hlen

theorem fy_parse_vtt_eq : ∀ lines,
    FYoutube.parse_vtt_file_with_timestamps lines = parse_vtt_file_with_timestamps lines := by
  intro lines
  unfold FYoutube.parse_vtt_file_with_timestamps parse_vtt_file_with_timestamps
    FYoutube.collapseWs collapseWs
  rw [fy_parseLoop_eq lines.length lines none [] [] [] (Nat.le_refl _)]
  simp only [fy_deduplicate_segments_eq, fy_collapseWsAux_eq]

/-! ### Stability of the sort: sortSegs is the stable sort by start time -/

theorem insertSeg_filter (key : List Char) (x : Seg) : ∀ l : List Seg,
    (insertSeg x l).filter (fun s => s.start_time = key) =
      ((x :: l).filter (fun s => s.start_time = key)) := by
  intro l
  induction l with
  | nil => rfl
  | cons y ys ih =>
    simp only [insertSeg]
    by_cases h : (lexLe x.start_time y.start_time)
    · simp [h]
    · have hne : ¬(y.start_time = x.start_time) := by
        intro he
        exact h (by rw [he]; exact lexLe_refl _)
      rw [if_neg h]
      by_cases hpy : (y.start_time = key)
      · by_cases hpx : (x.start_time = key)
        · exact absurd (hpx ▸ hpy) hne
        · simp only [List.filter_cons]
          simp [hpy, hpx, ih]
      · simp only [List.filter_cons]
        rw [if_neg (by simp [hpy]), ih]
        by_cases hpx : (x.start_time = key)
        · simp [List.filter_cons, hpx, hpy]
        · simp [List.filter_cons, hpx, hpy]

theorem sortSegs_stable (key : List Char) : ∀ l : List Seg,
    (sortSegs l).filter (fun s => s.start_time = key) =
      l.filter (fun s => s.start_time = key) := by
  intro l
  induction l with
  | nil => rfl
  | cons x xs ih =>
    simp only [sortSegs]
    rw [insertSeg_filter key x (sortSegs xs)]
    simp only [List.filter_cons]
    rw [ih]

/-! ### The shape of the parser's output -/

theorem parse_vtt_full_text (lines : List (List Char)) :
    (parse_vtt_file_with_timestamps lines).1 =
      pyStrip (collapseWs (parseLoop lines none [] [] []).2) := rfl

theorem parse_vtt_segments (lines : List (List Char)) :
    (parse_vtt_file_with_timestamps lines).2 =
      deduplicate_segments (preSegments lines) := rfl

theorem preSegments_good (lines : List (List Char)) :
    ∀ s ∈ preSegments lines, goodText s.text :=
  parseLoop_goodText lines.length lines none [] [] [] (Nat.le_refl _) (by simp)

theorem parse_vtt_full_text_join (lines : List (List Char)) :
    (parse_vtt_file_with_timestamps lines).1 =
      joinSpace ((preSegments lines).map Seg.text) := by
  rw [parse_vtt_full_text,
    parseLoop_flat lines.length lines none [] (Nat.le_refl _)]
  exact plain_normalize _ (preSegments_good lines)

theorem fetch_segments (lines : List (List Char)) :
    (fetch_transcript_with_timestamps lines).segments =
      deduplicate_segments (preSegments lines) := rfl

theorem fetch_duration_field (lines : List (List Char)) :
    (fetch_transcript_with_timestamps lines).duration_seconds =
      fetch_duration (fetch_transcript_with_timestamps lines).segments := rfl

theorem pyFloatSec_nonneg : ∀ s : List Char, 0 ≤ pyFloatSec s := by
  intro s
  unfold pyFloatSec
  split
  · split
    · positivity
    · exact le_refl 0
  · exact le_refl 0

theorem fetch_duration_nonneg (segs : List Seg) : 0 ≤ fetch_duration segs := by
  unfold fetch_duration
  split
  · exact le_refl 0
  · split
    · exact add_nonneg (add_nonneg (by positivity) (by positivity)) (pyFloatSec_nonneg _)
    · exact le_refl 0

/-! ### The claims -/

/-- C1, counterexample: on the Scenario B input the second cue repeats the
first cue's text, so the deduplicator drops it from the segment list, but
`plain_transcript` was already built from the pre-deduplication segments:
`full_text` is `"Hello world Hello world Hello there"`, not the join
`"Hello world Hello there"` of the retained segments' texts, so the claim as
stated is false. -/
theorem C1_counterexample :
    (parse_vtt_file_with_timestamps scenarioB).1 =
      "Hello world Hello world Hello there".toList ∧
    joinSpace (((parse_vtt_file_with_timestamps scenarioB).2).map Seg.text) =
      "Hello world Hello there".toList ∧
    (parse_vtt_file_with_timestamps scenarioB).1 ≠
      joinSpace (((parse_vtt_file_with_timestamps scenarioB).2).map Seg.text) := by
  refine ⟨?_, ?_, ?_⟩ <;> (rw [parse_vtt_eq_fuel]; decide)

/-- C1, amended: `full_text` equals the sanitized texts of the
pre-deduplication segments (in source order) joined with single spaces, with
no leading/trailing whitespace and no internal run of more than one
whitespace character; on the Scenario B input it is
`"Hello world Hello world Hello there"`. -/
theorem C1_full_text_is_pre_dedup_join :
    (∀ lines : List (List Char),
      (parse_vtt_file_with_timestamps lines).1 =
        joinSpace ((preSegments lines).map Seg.text) ∧
      noWsRun (parse_vtt_file_with_timestamps lines).1 ∧
      noLeadWs (parse_vtt_file_with_timestamps lines).1 ∧
      noTrailWs (parse_vtt_file_with_timestamps lines).1) ∧
    (parse_vtt_file_with_timestamps scenarioB).1 =
      "Hello world Hello world Hello there".toList := by
  constructor
  · intro lines
    have hj := parse_vtt_full_text_join lines
    have hmapgood : ∀ t ∈ (preSegments lines).map Seg.text, goodText t := by
      intro t ht
      rcases List.mem_map.mp ht with ⟨x, hx, hxt⟩
      exact hxt ▸ preSegments_good lines x hx
    obtain ⟨_, br, bl, bt⟩ := joinSpace_props _ hmapgood
    exact ⟨hj, hj ▸ br, hj ▸ bl, hj ▸ bt⟩
  · rw [parse_vtt_eq_fuel]; decide

/-- C2: `deduplicate_segments` equals the reference algorithm — stable-sort
by ascending start, keep the first element, then drop a segment when its
start or its text equals the last kept segment's, else keep it. The sort
used (`sortSegs`) is the stable sort by ascending start: it permutes the
input, it is sorted by start, and elements sharing a start keep their
original relative order (the filter by any fixed start is unchanged). On the
Scenario C cues (equal starts, different texts) only the first, `"hello"`,
is retained. -/
theorem C2_dedup_is_reference_algorithm :
    (∀ segs : List Seg, deduplicate_segments segs = dedupSpec segs) ∧
    (∀ l : List Seg, (sortSegs l).Perm l) ∧
    (∀ l : List Seg, List.Chain' segLe (sortSegs l)) ∧
    (∀ (key : List Char) (l : List Seg),
      (sortSegs l).filter (fun s => s.start_time = key) =
        l.filter (fun s => s.start_time = key)) ∧
    deduplicate_segments scenarioCsegs =
      [⟨"00:00:00.000".toList, "00:00:03.000".toList, "hello".toList⟩] :=
  ⟨deduplicate_eq_dedupSpec, sortSegs_perm, sortSegs_chain', sortSegs_stable, by decide⟩

/-- C3: the pipeline is a total function on every input line sequence (the
embedding is a terminating function, so no exception or error branch exists),
and the Transcript it returns is well-formed: every segment carries
well-formed `HH:MM:SS.mmm` timestamps and nonempty text, and the duration is
a well-defined nonnegative number. -/
theorem C3_total_and_wellformed : ∀ lines : List (List Char),
    (∀ s ∈ (fetch_transcript_with_timestamps lines).segments,
      wfStamp s.start_time ∧ wfStamp s.end_time ∧ s.text ≠ []) ∧
    0 ≤ (fetch_transcript_with_timestamps lines).duration_seconds := by
  intro lines
  constructor
  · intro s hs
    rw [fetch_segments] at hs
    have hs' : s ∈ preSegments lines := dedup_subset _ s hs
    have hwf := parseLoop_wfStamp lines.length lines none [] [] []
      (Nat.le_refl _) (by simp) (by simp) s hs'
    have hgood := preSegments_good lines s hs'
    exact ⟨hwf.1, hwf.2, hgood.1⟩
  · rw [fetch_duration_field]
    exact fetch_duration_nonneg _

/-- C4: an input in which no line matches the timestamp-range pattern parses
to the empty Transcript: no segments, empty full text, zero duration. -/
theorem C4_no_timestamp_lines_empty : ∀ lines : List (List Char),
    (∀ l ∈ lines, matchTimestampLine (pyStrip l) = none) →
    fetch_transcript_with_timestamps lines = ⟨[], [], 0⟩ := by
  intro lines h
  have hp : parse_vtt_file_with_timestamps lines = ([], []) := by
    unfold parse_vtt_file_with_timestamps
    rw [parseLoop_no_ts lines [] [] [] h]
    rfl
  unfold fetch_transcript_with_timestamps
  rw [hp]
  rfl

/-- C4 witness: a concrete two-line prose input with no timestamp lines
yields the empty Transcript. -/
theorem C4_witness :
    (∀ l ∈ plainProseLines, matchTimestampLine (pyStrip l) = none) ∧
    fetch_transcript_with_timestamps plainProseLines = ⟨[], [], 0⟩ :=
  ⟨by decide, C4_no_timestamp_lines_empty plainProseLines (by decide)⟩

/-- C5: the deduplicator is idempotent — re-running it on its own output
returns the output unchanged. -/
theorem C5_dedup_idempotent : ∀ segs : List Seg,
    deduplicate_segments (deduplicate_segments segs) = deduplicate_segments segs :=
  dedup_idem

/-- C6, counterexample: `00:00:03.000 --> 0:00:02.000` is a timestamp line
with a malformed timestamp (one-digit hour in the end stamp), yet it is not
treated as ordinary non-matching text: because its first stamp still matches
the boundary prefix pattern, the collection loop stops at it (leaving it
unconsumed) instead of accumulating it as text, and in a full parse the cue
text after it (`"world"`) is silently dropped. -/
theorem C6_counterexample :
    matchTimestampLine (pyStrip endMalformedTsLine) = none ∧
    tsArrowStart endMalformedTsLine = true ∧
    collectText [endMalformedTsLine] [] = ([], [endMalformedTsLine]) ∧
    collectText [endMalformedTsLine] [] ≠
      collectText [] ([] ++ pyStrip endMalformedTsLine ++ [' ']) ∧
    parse_vtt_file_with_timestamps
        ["00:00:00.000 --> 00:00:02.000".toList, "Hello".toList,
         endMalformedTsLine, "world".toList] =
      ("Hello".toList,
       [⟨"00:00:00.000".toList, "00:00:02.000".toList, "Hello".toList⟩]) := by
  refine ⟨by decide, by decide, by decide, by decide, ?_⟩
  rw [parse_vtt_eq_fuel]
  decide

/-- C6, amended: a timestamp line with a malformed timestamp never opens a
new cue and never flushes the cue being accumulated: in the outer scan it is
skipped with the whole parser state unchanged, wherever it appears. In the
text-collection loop its treatment depends on where the malformation sits: a
line that also fails the boundary prefix pattern
`\d{2}:\d{2}:\d{2}\.\d{3} -->` (e.g. a one-digit hour in the start stamp) is
consumed as ordinary text, while a line matching that prefix but failing the
full range pattern (e.g. a one-digit hour in the end stamp) terminates text
collection unconsumed, after which the outer scan skips it without it
contributing text. -/
theorem C6_malformed_boundary : ∀ m : List Char,
    isHeaderLine (pyStrip m) = false →
    matchTimestampLine (pyStrip m) = none →
    (∀ (rest : List (List Char)) cur ct segs plain,
      parseLoop (m :: rest) cur ct segs plain = parseLoop rest cur ct segs plain) ∧
    ((pyStrip m).isEmpty = false → tsArrowStart m = false →
      pyIsDigit (pyStrip m) = false →
      ∀ (rest : List (List Char)) (acc : List Char),
        collectText (m :: rest) acc = collectText rest (acc ++ pyStrip m ++ [' '])) ∧
    (tsArrowStart m = true →
      ∀ (rest : List (List Char)) (acc : List Char),
        collectText (m :: rest) acc = (acc, m :: rest)) := by
  intro m h1 h2
  exact ⟨fun rest cur ct segs plain => parseLoop_skip_line m rest cur ct segs plain h1 h2,
         fun hne harrow hdig rest acc => collectText_text_line m rest acc hne harrow hdig,
         fun harrow rest acc => collectText_stop_line m rest acc harrow⟩

/-- C6 witness: the start-malformed line `0:00:00.000 --> 00:00:02.000` is
skipped by the outer loop and consumed as ordinary text by the collection
loop, while the end-malformed line `00:00:03.000 --> 0:00:02.000` is skipped
by the outer loop and terminates the collection loop unconsumed. -/
theorem C6_malformed_boundary_witness :
    (isHeaderLine (pyStrip malformedTsLine) = false ∧
     matchTimestampLine (pyStrip malformedTsLine) = none ∧
     (pyStrip malformedTsLine).isEmpty = false ∧
     tsArrowStart malformedTsLine = false ∧
     pyIsDigit (pyStrip malformedTsLine) = false) ∧
    parseLoop [malformedTsLine] none [] [] [] = parseLoop [] none [] [] [] ∧
    collectText [malformedTsLine] [] =
      collectText [] ([] ++ pyStrip malformedTsLine ++ [' ']) ∧
    (isHeaderLine (pyStrip endMalformedTsLine) = false ∧
     matchTimestampLine (pyStrip endMalformedTsLine) = none ∧
     tsArrowStart endMalformedTsLine = true) ∧
    parseLoop [endMalformedTsLine] none [] [] [] = parseLoop [] none [] [] [] ∧
    collectText [endMalformedTsLine] [] = ([], [endMalformedTsLine]) := by
  have h1 := C6_malformed_boundary malformedTsLine (by decide) (by decide)
  have h2 := C6_malformed_boundary endMalformedTsLine (by decide) (by decide)
  exact ⟨⟨by decide, by decide, by decide, by decide, by decide⟩,
         h1.1 [] none [] [] [],
         h1.2.1 (by decide) (by decide) (by decide) [] [],
         ⟨by decide, by decide, by decide⟩,
         h2.1 [] none [] [] [],
         h2.2.2 (by decide) [] []⟩

/-- C7: the sanitizer removes inline `<HH:MM:SS.mmm>` tags, `<c>`-style tags
and the `align:start position:0%` directive, then collapses whitespace runs
and trims: the Scenario D cue text sanitizes to `"Hello world"`, a directive
plus tab example sanitizes to `"a b c"`, and on every input the output has no
whitespace run and no leading or trailing whitespace. -/
theorem C7_sanitizer :
    clean_vtt_text ("Hello <00:00:01.000><c> world</c> ".toList) =
      "Hello world".toList ∧
    clean_vtt_text ("a\tb align:start position:0% c".toList) = "a b c".toList ∧
    (∀ t : List Char, noWsRun (clean_vtt_text t) ∧ noLeadWs (clean_vtt_text t) ∧
      noTrailWs (clean_vtt_text t)) := by
  refine ⟨by decide, by decide, ?_⟩
  intro t
  obtain ⟨_, b, c, d⟩ := clean_vtt_text_props t
  exact ⟨b, c, d⟩

/-- C8: the duration of a parse result is `0` when there are no retained
segments, and otherwise, when the last retained segment's end timestamp is
well-formed `HH:MM:SS.mmm`, it equals
`hours*3600 + minutes*60 + seconds.milliseconds` read from that timestamp. -/
theorem C8_duration_from_last_end : ∀ lines : List (List Char),
    ((fetch_transcript_with_timestamps lines).segments = [] →
      (fetch_transcript_with_timestamps lines).duration_seconds = 0) ∧
    (∀ last : Seg,
      (fetch_transcript_with_timestamps lines).segments.getLast? = some last →
      wfStamp last.end_time →
      (fetch_transcript_with_timestamps lines).duration_seconds =
        stampSeconds last.end_time) := by
  intro lines
  constructor
  · intro h
    rw [fetch_duration_field, h]
    rfl
  · intro last hlast hwf
    rw [fetch_duration_field]
    exact fetch_duration_wf _ last hlast hwf

/-- C8 witness: on the Scenario B input the last retained segment ends at
`00:00:06.000`, a well-formed timestamp, and the duration equals its
seconds value, which is `6`. -/
theorem C8_witness :
    (fetch_transcript_with_timestamps scenarioB).segments.getLast? =
      some ⟨"00:00:04.000".toList, "00:00:06.000".toList, "Hello there".toList⟩ ∧
    wfStamp ("00:00:06.000".toList) ∧
    (fetch_transcript_with_timestamps scenarioB).duration_seconds =
      stampSeconds ("00:00:06.000".toList) ∧
    stampSeconds ("00:00:06.000".toList) = 6 := by
  refine ⟨by rw [fetch_eq_fuel]; decide, by decide, ?_, ?_⟩
  · exact (C8_duration_from_last_end scenarioB).2
      ⟨"00:00:04.000".toList, "00:00:06.000".toList, "Hello there".toList⟩
      (by rw [fetch_eq_fuel]; decide) (by decide)
  · simp +decide [stampSeconds, pyIntDigits]

/-- C9: the deduplicator only removes: every output segment is an element of
the input, and on nonempty input the output is nonempty and its first
element is the first element of the stable-sorted input, a segment whose
start is minimal among all input segments. -/
theorem C9_dedup_only_removes : ∀ segs : List Seg,
    (∀ x ∈ deduplicate_segments segs, x ∈ segs) ∧
    (segs ≠ [] →
      deduplicate_segments segs ≠ [] ∧
      (deduplicate_segments segs).head? = (sortSegs segs).head? ∧
      ∀ f ∈ (deduplicate_segments segs).head?, ∀ x ∈ segs, segLe f x) := by
  intro segs
  refine ⟨dedup_subset segs, ?_⟩
  intro hne
  cases h : sortSegs segs with
  | nil =>
    have hlen := (sortSegs_perm segs).length_eq
    rw [h] at hlen
    exact absurd (List.eq_nil_of_length_eq_zero hlen.symm) hne
  | cons f rest =>
    have hd : deduplicate_segments segs = f :: dedupWalk f rest := by
      unfold deduplicate_segments
      rw [h]
    refine ⟨by rw [hd]; simp, by simp [hd, h], ?_⟩
    intro g hg x hx
    rw [hd] at hg
    simp only [List.head?_cons, Option.mem_def, Option.some.injEq] at hg
    subst hg
    have hchain := sortSegs_chain' segs
    rw [h] at hchain
    have hx' : x ∈ f :: rest := by
      rw [← h]
      exact mem_sortSegs.mpr hx
    exact chain'_head_le rest f hchain x hx'

/-- C9 witness: on a concrete unsorted two-segment input the output is the
sorted input itself, whose head is the segment with the smaller start. -/
theorem C9_witness :
    ([⟨"00:00:02.000".toList, "00:00:03.000".toList, "b".toList⟩,
      ⟨"00:00:01.000".toList, "00:00:02.000".toList, "a".toList⟩] : List Seg) ≠ [] ∧
    (deduplicate_segments
        [⟨"00:00:02.000".toList, "00:00:03.000".toList, "b".toList⟩,
         ⟨"00:00:01.000".toList, "00:00:02.000".toList, "a".toList⟩] ≠ [] ∧
      (deduplicate_segments
        [⟨"00:00:02.000".toList, "00:00:03.000".toList, "b".toList⟩,
         ⟨"00:00:01.000".toList, "00:00:02.000".toList, "a".toList⟩]).head? =
        (sortSegs
          [⟨"00:00:02.000".toList, "00:00:03.000".toList, "b".toList⟩,
           ⟨"00:00:01.000".toList, "00:00:02.000".toList, "a".toList⟩]).head? ∧
      ∀ f ∈ (deduplicate_segments
        [⟨"00:00:02.000".toList, "00:00:03.000".toList, "b".toList⟩,
         ⟨"00:00:01.000".toList, "00:00:02.000".toList, "a".toList⟩]).head?,
        ∀ x ∈ ([⟨"00:00:02.000".toList, "00:00:03.000".toList, "b".toList⟩,
                ⟨"00:00:01.000".toList, "00:00:02.000".toList, "a".toList⟩] : List Seg),
          segLe f x) :=
  ⟨by decide,
   (C9_dedup_only_removes
     [⟨"00:00:02.000".toList, "00:00:03.000".toList, "b".toList⟩,
      ⟨"00:00:01.000".toList, "00:00:02.000".toList, "a".toList⟩]).2 (by decide)⟩

/-- C10: the two copies of the parsing pipeline, in `fetch_transcripts.py`
and `fetch_youtube.py`, are extensionally equal: on every input line sequence
they return the same `(plain_transcript, timestamped_segments)` pair. -/
theorem C10_two_copies_agree : ∀ lines : List (List Char),
    FYoutube.parse_vtt_file_with_timestamps lines =
      parse_vtt_file_with_timestamps lines :=
  fy_parse_vtt_eq
